import Mathlib

/-!
SoundTouch JNI bridge (`src/jni/soundtouch-jni.cpp`).

A shallow embedding of the native bridge: the per-width sample codec of
`receiveSamples` / `processFrame`, the drain loops of `process_frame`,
`processFrame` and `_processFile`, the OpenMP thread-local workaround
`_init_threading`, and the single error slot `_errMsg`.

Conventions.

* Samples (`float`, `double`) are rationals. Every result of type `float` in
  the source passes through a rounding function `fl : ℚ → ℚ`: `id` is exact
  arithmetic, `toFloat32` is IEEE-754 binary32 round-to-nearest-even on finite
  values. The `double` expressions of the decoder (`value * conv`,
  `temp2[i] * conv - 1.0`, with `conv` a power of two and operands of at most 32
  bits) are exact in binary64, so only the final `(float)` narrowing rounds.
  The `float` literals of the encoder are binary32 values; `2147483647.0f` is
  not one and denotes `2 ^ 31`. Infinities and NaN are not represented.
* Machine integers are `ℤ`, with two's complement wrapping written out.
* Bytes are naturals below 256; byte order is little-endian (`_swap16` and
  `_swap32` are the identity in the source).
* The engine, the reader and the writer are collaborators outside the file. The
  engine is a list of answers to successive pulls (`Pulled`); what the bridge does
  to its collaborators is a list of `Event`s; a `Fault` names the collaborator
  call that throws `std::runtime_error`.
-/

namespace SoundTouchJni

/-! ## Machine arithmetic -/

/-- The macro `BUFF_SIZE`. -/
def BUFF_SIZE : ℤ := 4096

/-- Signed two's complement value of the low `w` bits of `v`. -/
def wrapSigned (w : ℕ) (v : ℤ) : ℤ := (v + 2 ^ (w - 1)) % 2 ^ w - 2 ^ (w - 1)

/-- Conversion to `int` (32 bits). -/
def toInt32 (v : ℤ) : ℤ := wrapSigned 32 v

/-- Conversion `(short)` (16 bits). -/
def toShort (v : ℤ) : ℤ := wrapSigned 16 v

/-- Conversion `(unsigned char)` (8 bits). -/
def toUChar (v : ℤ) : ℤ := v % 256

/-- The 32-bit pattern of an `int`, as a natural number below `2 ^ 32`. -/
def bits32 (v : ℤ) : ℕ := (v % 2 ^ 32).toNat

/-- The `int` whose 32-bit pattern is `p`. -/
def ofBits32 (p : ℕ) : ℤ := wrapSigned 32 (p : ℤ)

/-- Byte `k` (little-endian) of a bit pattern. -/
def byteAt (p : ℕ) (k : ℕ) : ℕ := p / 256 ^ k % 256

/-- The pattern read by a 4-byte little-endian load. -/
def load32 (b0 b1 b2 b3 : ℕ) : ℕ := b0 + 256 * b1 + 65536 * b2 + 16777216 * b3

/-! ## Floating point -/

/-- Conversion `(int) fvalue` of a floating value: the fraction is discarded
(truncation toward zero). The conversion is only defined by C++ when the result
fits an `int`; callers clamp first. -/
def truncToInt (q : ℚ) : ℤ := if 0 ≤ q then ⌊q⌋ else ⌈q⌉

/-- Nearest integer, ties to the even one. -/
def roundHalfEven (q : ℚ) : ℤ :=
  if q - ⌊q⌋ < 1 / 2 then ⌊q⌋
  else if 1 / 2 < q - ⌊q⌋ then ⌊q⌋ + 1
  else if ⌊q⌋ % 2 = 0 then ⌊q⌋ else ⌊q⌋ + 1

/-- Binary exponent used by binary32 for the value `q`: `⌊log₂ |q|⌋`, but not
below the exponent `-126` of the subnormal range. -/
def float32Exp (q : ℚ) : ℤ := max (Int.log 2 |q|) (-126)

/-- IEEE-754 binary32 rounding (round to nearest, ties to even) of an exact
value: 24 significant bits, unit in the last place `2 ^ (e - 23)`. Overflow to
infinity is not represented: a magnitude beyond the binary32 range keeps its
rounded value. -/
def toFloat32 (q : ℚ) : ℚ :=
  if q = 0 then 0
  else (roundHalfEven (q / 2 ^ (float32Exp q - 23)) : ℚ) * 2 ^ (float32Exp q - 23)

/-! ## Sample codec -/

/-- Source `saturate(float fvalue, float minval, float maxval)`: clamp, then
convert to `int`. -/
def saturate (fvalue minval maxval : ℚ) : ℤ :=
  truncToInt (if fvalue > maxval then maxval else if fvalue < minval then minval else fvalue)

/-- Body of the `case 1` loop of `receiveSamples`:
`(unsigned char) saturate(buffer[i] * 128.0f + 128.0f, 0.0f, 255.0f)`. -/
def encode8 (fl : ℚ → ℚ) (x : ℚ) : ℤ :=
  toUChar (saturate (fl (fl (x * 128) + 128)) 0 255)

/-- Body of the `case 2` loop of `receiveSamples`:
`(short) saturate(buffer[i] * 32768.0f, -32768.0f, 32767.0f)`. -/
def encode16 (fl : ℚ → ℚ) (x : ℚ) : ℤ :=
  toShort (saturate (fl (x * 32768)) (-32768) 32767)

/-- Body of the `case 3` loop of `receiveSamples`: the `int value`
`saturate(buffer[i] * 8388608.0f, -8388608.0f, 8388607.0f)` that is then stored
with a 4-byte store at byte offset `3 * i`. -/
def encode24 (fl : ℚ → ℚ) (x : ℚ) : ℤ :=
  saturate (fl (x * 8388608)) (-8388608) 8388607

/-- Body of the `case 4` loop of `receiveSamples`: the `int value`
`saturate(buffer[i] * 2147483648.0f, -2147483648.0f, 2147483647.0f)`. The clamp
bounds are `float` parameters and the literal `2147483647.0f` is the binary32
value `2 ^ 31`, so the upper bound is 2147483648 whatever the arithmetic of the
product. A clamped value of `2 ^ 31` does not fit an `int`: its conversion,
which C++ leaves undefined, is taken as the two's complement wrap to `-2 ^ 31`
(the result of the x86 conversion). -/
def encode32 (fl : ℚ → ℚ) (x : ℚ) : ℤ :=
  toInt32 (saturate (fl (x * 2147483648)) (-2147483648) 2147483648)

/-- Body of the `case 1` loop of `processFrame`: `(float)(temp2[i] * conv - 1.0)`
with `conv = 1.0 / 128.0`, for the unsigned byte `v`. -/
def decode8 (fl : ℚ → ℚ) (v : ℤ) : ℚ := fl (v * (1 / 128) - 1)

/-- Body of the `case 2` loop of `processFrame`: `(float)(value * conv)` with
`conv = 1.0 / 32768.0`, for the `short` `v`. -/
def decode16 (fl : ℚ → ℚ) (v : ℤ) : ℚ := fl (v * (1 / 32768))

/-- The integer part of the `case 3` loop of `processFrame`, on the `int` read
by the 4-byte load: `value & 0x00ffffff`, then
`value |= (value & 0x00800000) ? 0xff000000 : 0`. -/
def signExtend24 (raw : ℤ) : ℤ :=
  let value : ℕ := bits32 raw &&& 0x00ffffff
  ofBits32 (value ||| (if value &&& 0x00800000 ≠ 0 then 0xff000000 else 0))

/-- Body of the `case 3` loop of `processFrame`: `(float)(value * conv)` with
`conv = 1.0 / 8388608.0`, for the `int` `raw` read by the 4-byte load. -/
def decode24 (fl : ℚ → ℚ) (raw : ℤ) : ℚ := fl (signExtend24 raw * (1 / 8388608))

/-- Body of the `case 4` loop of `processFrame`: `(float)(value * conv)` with
`conv = 1.0 / 2147483648.0`, for the `int` `v`. -/
def decode32 (fl : ℚ → ℚ) (v : ℤ) : ℚ := fl (v * (1 / 2147483648))

/-- What the decoder loads for a 24-bit sample whose encoder value was `value`:
the three low bytes of the value's pattern, and the byte `b3` that follows them in
the buffer. -/
def packed24 (value : ℤ) (b3 : ℕ) : ℤ :=
  ofBits32 (load32 (byteAt (bits32 value) 0) (byteAt (bits32 value) 1)
    (byteAt (bits32 value) 2) b3)

/-- Truncation toward zero in the words of the specification: the sign of the
value times the integer part of its magnitude. -/
def specTruncTowardZero (q : ℚ) : ℤ := if q < 0 then -⌊-q⌋ else ⌊q⌋

/-- The specification's 16-bit encoding: scale by 32768, clamp to
`[-32768, 32767]`, truncate toward zero. -/
def specEncode16 (x : ℚ) : ℤ := specTruncTowardZero (max (-32768) (min (32768 * x) 32767))

/-! ## Encoder and decoder loops -/

/-- The `k` low bytes of a bit pattern, low byte first. -/
def leBytes (p : ℕ) (k : ℕ) : List ℕ := (List.range k).map (byteAt p)

/-- Memory after storing the bytes `bs` at byte offset `off`. -/
def store (mem : ℕ → ℕ) (off : ℕ) (bs : List ℕ) : ℕ → ℕ :=
  fun a => if off ≤ a ∧ a < off + bs.length then bs.getD (a - off) 0 else mem a

/-- The `switch` of `receiveSamples`: contents of `temp` after the loop for the
given width. A fresh allocation is read as zero bytes; an unsupported width
leaves it untouched. The 24-bit case stores four bytes every three. -/
def encodeLoop (fl : ℚ → ℚ) (buffer : ℕ → ℚ) (numElems bytesPerSample : ℤ) : ℕ → ℕ :=
  (List.range numElems.toNat).foldl
    (fun temp i =>
      if bytesPerSample = 1 then store temp i (leBytes (bits32 (encode8 fl (buffer i))) 1)
      else if bytesPerSample = 2 then
        store temp (2 * i) (leBytes (bits32 (encode16 fl (buffer i))) 2)
      else if bytesPerSample = 3 then
        store temp (3 * i) (leBytes (bits32 (encode24 fl (buffer i))) 4)
      else if bytesPerSample = 4 then
        store temp (4 * i) (leBytes (bits32 (toInt32 (encode32 fl (buffer i)))) 4)
      else temp)
    (fun _ => 0)

/-- The `switch` of `processFrame`: the samples written to `buffer[0 .. numElems)`
for the given width, `numElems = numBytes / bytesPerSample`. A byte read past
the end of the array is read as zero; an unsupported width writes nothing and
the element is read as zero. -/
def decodeLoop (fl : ℚ → ℚ) (bytes : List ℕ) (bytesPerSample : ℤ) : List ℚ :=
  (List.range (Int.tdiv bytes.length bytesPerSample).toNat).map
    (fun i =>
      if bytesPerSample = 1 then decode8 fl (bytes.getD i 0)
      else if bytesPerSample = 2 then
        decode16 fl (wrapSigned 16 (bytes.getD (2 * i) 0 + 256 * bytes.getD (2 * i + 1) 0))
      else if bytesPerSample = 3 then
        decode24 fl (ofBits32 (load32 (bytes.getD (3 * i) 0) (bytes.getD (3 * i + 1) 0)
          (bytes.getD (3 * i + 2) 0) (bytes.getD (3 * i + 3) 0)))
      else if bytesPerSample = 4 then
        decode32 fl (ofBits32 (load32 (bytes.getD (4 * i) 0) (bytes.getD (4 * i + 1) 0)
          (bytes.getD (4 * i + 2) 0) (bytes.getD (4 * i + 3) 0)))
      else 0)

/-! ## Process state, thread-local bridge, error slot -/

/-- Global state of the library: the string `_errMsg`, the pointer
`_p_gomp_tls` (0 is `NULL`), and the value of `gomp_tls_key` in each thread
(0 is `NULL`). -/
structure JniState where
  errMsg : String
  p_gomp_tls : ℕ
  gomp_tls : ℕ → ℕ

/-- State at load time: `_errMsg = ""`, `_p_gomp_tls = NULL`, with the given
thread-local values. -/
def JniState.init (tls : ℕ → ℕ) : JniState := ⟨"", 0, tls⟩

/-- Source `_setErrmsg`: `_errMsg = msg`. -/
def _setErrmsg (msg : String) (s : JniState) : JniState := { s with errMsg := msg }

/-- Source `Java_net_surina_soundtouch_SoundTouch_getErrorString`: returns the
stored message and clears it. -/
def Java_net_surina_soundtouch_SoundTouch_getErrorString (s : JniState) : String × JniState :=
  (s.errMsg, { s with errMsg := "" })

/-- The message set by `_init_threading` on failure. -/
def threadingErrMsg : String :=
  "Error - OpenMP threading not properly initialized: Call SoundTouch.getVersionString() from the App main thread!"

/-- Source `_init_threading(warn)`, run by thread `thread`; `openmp` selects the
`#ifdef _OPENMP` variant. Returns the status and the new state. -/
def _init_threading (openmp : Bool) (thread : ℕ) (warn : Bool) (s : JniState) : ℤ × JniState :=
  if openmp then
    let ptr := s.gomp_tls thread
    let s1 : JniState :=
      if ptr = 0 then { s with gomp_tls := Function.update s.gomp_tls thread s.p_gomp_tls }
      else { s with p_gomp_tls := ptr }
    if warn = true ∧ s1.p_gomp_tls = 0 then (-1, _setErrmsg threadingErrMsg s1) else (0, s1)
  else (0, s)

/-- Source `Java_net_surina_soundtouch_SoundTouch_getVersionString`, as far as
the state goes: it runs `_init_threading(false)`. -/
def Java_net_surina_soundtouch_SoundTouch_getVersionString (openmp : Bool) (thread : ℕ)
    (s : JniState) : JniState :=
  (_init_threading openmp thread false s).2

/-- A sequence of `_init_threading` calls, each by a thread with a `warn` flag. -/
def runInitThreading (openmp : Bool) (calls : List (ℕ × Bool)) (s : JniState) : JniState :=
  calls.foldl (fun st c => (_init_threading openmp c.1 c.2 st).2) s

/-! ## Drain loops -/

/-- One answer of the engine to `receiveSamples(sampleBuffer, maxSamples)`: the
number of frames returned and the samples it left at the start of the scratch
buffer. -/
structure Pulled where
  nSamples : ℤ
  samples : List ℚ
deriving DecidableEq

/-- What the bridge does to its collaborators: calls on the engine, calls of the
Java callback `receiveSamples(byte[])`, calls of `outFile.write`. -/
inductive Event where
  | setSampleRate (rate : ℤ)
  | setChannels (n : ℤ)
  | putSamples (samples : List ℚ) (nSamples : ℤ)
  | flush
  | pull (maxSamples : ℤ) (nSamples : ℤ)
  | callback (payload : List ℕ)
  | write (samples : List ℚ) (numElems : ℤ)
  | abort
deriving DecidableEq

/-- Source `receiveSamples(env, object, buffer, numElems, bytesPerSample)`:
nothing for `numElems == 0`; otherwise encode and hand a new array of
`numBytes` bytes to the Java callback. An unsupported width hits
`assert(false)`. -/
def receiveSamples (fl : ℚ → ℚ) (buffer : ℕ → ℚ) (numElems bytesPerSample : ℤ) : List Event :=
  if numElems = 0 then []
  else
    let numBytes := toInt32 (numElems * bytesPerSample)
    if bytesPerSample = 1 ∨ bytesPerSample = 2 ∨ bytesPerSample = 3 ∨ bytesPerSample = 4 then
      [Event.callback ((List.range numBytes.toNat).map
        (encodeLoop fl buffer numElems bytesPerSample))]
    else [Event.abort]

/-- The loop `do { nSamples = receiveSamples(buf, cap); sink(nSamples); } while
(nSamples != 0)` against the answers `engine` still to come. Returns the events
and the answers left over; `none` when the answers ran out before a pull
returned zero frames (the loop has not finished). -/
def drainLoop (cap : ℤ) (sink : Pulled → List Event) :
    List Pulled → List Event × Option (List Pulled)
  | [] => ([], none)
  | p :: rest =>
    if p.nSamples ≠ 0 then
      (Event.pull cap p.nSamples :: (sink p ++ (drainLoop cap sink rest).1),
        (drainLoop cap sink rest).2)
    else (Event.pull cap p.nSamples :: sink p, some rest)

/-- The sink of the incremental drains:
`receiveSamples(env, object, sampleBuffer, nSamples * nChannels, bytesPerSample)`. -/
def callbackSink (fl : ℚ → ℚ) (nChannels bytesPerSample : ℤ) (p : Pulled) : List Event :=
  receiveSamples fl (fun i => p.samples.getD i 0) (toInt32 (p.nSamples * nChannels))
    bytesPerSample

/-- The sink of the batch drains: `outFile.write(sampleBuffer, nSamples * nChannels)`. -/
def writeSink (nChannels : ℤ) (p : Pulled) : List Event :=
  [Event.write ((List.range (toInt32 (p.nSamples * nChannels)).toNat).map
      (fun i => p.samples.getD i 0))
    (toInt32 (p.nSamples * nChannels))]

/-- Source `process_frame`. -/
def process_frame (fl : ℚ → ℚ) (sampleBuffer : List ℚ) (bufferSize sampleRate nChannels
    bytesPerSample : ℤ) (engine : List Pulled) : List Event :=
  [Event.setSampleRate sampleRate, Event.setChannels nChannels,
    Event.putSamples sampleBuffer (Int.tdiv bufferSize nChannels)] ++
  (drainLoop (Int.tdiv BUFF_SIZE nChannels) (callbackSink fl nChannels bytesPerSample) engine).1

/-- Source `Java_net_surina_soundtouch_SoundTouch_processFrame`, run by thread
`thread`; `sampleBuffer = none` is the `NULL` array. Returns the status, the new
state and the events. The scratch array `buffer[BUFF_SIZE]` is a list here, so
this describes the source for chunks whose `numBytes / 2` samples fit the array
(at most 8193 bytes); the source writes the samples of a longer chunk past the
end of the array. The channel count is a divisor in the source and is taken
above zero. -/
def Java_net_surina_soundtouch_SoundTouch_processFrame (fl : ℚ → ℚ) (openmp : Bool)
    (thread : ℕ) (s : JniState) (sampleBuffer : Option (List ℕ)) (sampleRate nChannels : ℤ)
    (engine : List Pulled) : ℤ × JniState × List Event :=
  let bytesPerSample : ℤ := 2
  if (_init_threading openmp thread true s).1 ≠ 0 then
    (-1, (_init_threading openmp thread true s).2, [])
  else
    match sampleBuffer with
    | none =>
      (0, (_init_threading openmp thread true s).2,
        Event.flush :: (drainLoop (Int.tdiv BUFF_SIZE nChannels)
          (callbackSink fl nChannels bytesPerSample) engine).1)
    | some bytes =>
      (0, (_init_threading openmp thread true s).2,
        process_frame fl (decodeLoop fl bytes bytesPerSample)
          (Int.tdiv bytes.length bytesPerSample) sampleRate nChannels bytesPerSample engine)

/-- The loop `while (inFile.eof() == 0)` of `_processFile`, over the chunks the
reader returns. -/
def feedLoop (nChannels : ℤ) : List (List ℚ) → List Pulled → List Event × Option (List Pulled)
  | [], engine => ([], some engine)
  | chunk :: more, engine =>
    match (drainLoop (Int.tdiv BUFF_SIZE nChannels) (writeSink nChannels) engine).2 with
    | none =>
      (Event.putSamples chunk (Int.tdiv chunk.length nChannels) ::
        (drainLoop (Int.tdiv BUFF_SIZE nChannels) (writeSink nChannels) engine).1, none)
    | some rest =>
      (Event.putSamples chunk (Int.tdiv chunk.length nChannels) ::
        ((drainLoop (Int.tdiv BUFF_SIZE nChannels) (writeSink nChannels) engine).1 ++
          (feedLoop nChannels more rest).1),
        (feedLoop nChannels more rest).2)

/-- Source `_processFile`, for an input file with the given sample rate and
channel count whose reads return `chunks`. Returns the events, and the engine
answers left over (`none` when they ran out before the function returned). The
source asserts `nChannels > 0` before dividing by it; this describes the runs
that pass the assertion. -/
def _processFile (sampleRate nChannels : ℤ) (chunks : List (List ℚ)) (engine : List Pulled) :
    List Event × Option (List Pulled) :=
  match (feedLoop nChannels chunks engine).2 with
  | none =>
    (Event.setSampleRate sampleRate :: Event.setChannels nChannels ::
      (feedLoop nChannels chunks engine).1, none)
  | some rest =>
    (Event.setSampleRate sampleRate :: Event.setChannels nChannels ::
      ((feedLoop nChannels chunks engine).1 ++ Event.flush ::
        (drainLoop (Int.tdiv BUFF_SIZE nChannels) (writeSink nChannels) rest).1),
      (drainLoop (Int.tdiv BUFF_SIZE nChannels) (writeSink nChannels) rest).2)

/-! ## Trace observations -/

/-- Number of engine answers that return zero frames. -/
def emptyPulls (engine : List Pulled) : ℕ := engine.countP (fun p => decide (p.nSamples = 0))

/-- Frame counts returned by the engine pulls of a trace, in order. -/
def pullsOf (tr : List Event) : List ℤ :=
  tr.filterMap (fun e => match e with
    | Event.pull _ n => some n
    | _ => none)

/-- Element counts passed to `outFile.write`, in order. -/
def writeSizes (tr : List Event) : List ℤ :=
  tr.filterMap (fun e => match e with
    | Event.write _ n => some n
    | _ => none)

/-! ## Scenarios -/

/-- Three threads: thread 0 holds the thread-local value 1, thread 1 holds 2,
every other thread holds none; nothing cached, no error. -/
def threeThreads : JniState := JniState.init (fun t => if t = 0 then 1 else if t = 1 then 2 else 0)

/-- One thread-local value, 5, held by thread 0 only. -/
def oneThread : JniState := JniState.init (fun t => if t = 0 then 5 else 0)

/-- The value 1 is cached and every thread holds the thread-local value 2. -/
def cachedOther : JniState := ⟨"", 1, fun _ => 2⟩

/-- The value 1 is cached and no thread holds a thread-local value. -/
def cachedOnly : JniState := ⟨"", 1, fun _ => 0⟩

/-! ## Allocation and stores of the encoder -/

/-- The `int` operation `a & b`, on 32-bit two's complement patterns. -/
def and32 (a b : ℤ) : ℤ := ofBits32 (bits32 a &&& bits32 b)

/-- The size `(numBytes + 24) & -8` that `receiveSamples` passes to `new char[]`. -/
def allocSize (numBytes : ℤ) : ℤ := and32 (toInt32 (numBytes + 24)) (-8)

/-- The stores of the `switch` of `receiveSamples` in program order, one per loop
iteration: the byte offset into `temp` and the bytes stored there. -/
def encodeStores (fl : ℚ → ℚ) (buffer : ℕ → ℚ) (numElems bytesPerSample : ℤ) :
    List (ℕ × List ℕ) :=
  (List.range numElems.toNat).map
    (fun i =>
      if bytesPerSample = 1 then (i, leBytes (bits32 (encode8 fl (buffer i))) 1)
      else if bytesPerSample = 2 then (2 * i, leBytes (bits32 (encode16 fl (buffer i))) 2)
      else if bytesPerSample = 3 then (3 * i, leBytes (bits32 (encode24 fl (buffer i))) 4)
      else if bytesPerSample = 4 then
        (4 * i, leBytes (bits32 (toInt32 (encode32 fl (buffer i)))) 4)
      else (0, []))

/-! ## Failures raised by the collaborators -/

/-- A failure of a collaborator (reader, writer or engine): the call that would
produce event number `call` of the run throws `std::runtime_error(what)`
instead. -/
structure Fault where
  call : ℕ
  what : String
deriving DecidableEq

/-- How a native entry point ends: it returns a status to Java, an exception
leaves it uncaught, or it is still waiting for the engine. -/
inductive Outcome where
  | returned (status : ℤ)
  | escaped (what : String)
  | unfinished
deriving DecidableEq

/-- The message thrown during a run with events `tr`, if the faulty call is
reached. -/
def thrownIn (tr : List Event) : Option Fault → Option String
  | none => none
  | some f => if f.call < tr.length then some f.what else none

/-- The events of a run up to the throw, all of them if nothing is thrown. -/
def eventsUntil (tr : List Event) : Option Fault → List Event
  | none => tr
  | some f => tr.take f.call

/-- Source `Java_net_surina_soundtouch_SoundTouch_processFile`, run by thread
`thread`: the threading check, then `_processFile` inside
`try { } catch (const runtime_error &e) { _setErrmsg(e.what()); return -1; }`.
Returns how the call ends, the new state and the events. -/
def Java_net_surina_soundtouch_SoundTouch_processFile (openmp : Bool) (thread : ℕ)
    (s : JniState) (sampleRate nChannels : ℤ) (chunks : List (List ℚ)) (engine : List Pulled)
    (fault : Option Fault) : Outcome × JniState × List Event :=
  if (_init_threading openmp thread true s).1 ≠ 0 then
    (Outcome.returned (-1), (_init_threading openmp thread true s).2, [])
  else
    match thrownIn (_processFile sampleRate nChannels chunks engine).1 fault with
    | some err =>
      (Outcome.returned (-1), _setErrmsg err (_init_threading openmp thread true s).2,
        eventsUntil (_processFile sampleRate nChannels chunks engine).1 fault)
    | none =>
      match (_processFile sampleRate nChannels chunks engine).2 with
      | none =>
        (Outcome.unfinished, (_init_threading openmp thread true s).2,
          (_processFile sampleRate nChannels chunks engine).1)
      | some _ =>
        (Outcome.returned 0, (_init_threading openmp thread true s).2,
          (_processFile sampleRate nChannels chunks engine).1)

/-- Source `Java_net_surina_soundtouch_SoundTouch_processFrame` against an
engine that may throw: the function and `process_frame` have no handler, so a
`std::runtime_error` thrown by an engine call leaves the native function. -/
def Java_net_surina_soundtouch_SoundTouch_processFrame_throwing (fl : ℚ → ℚ)
    (openmp : Bool) (thread : ℕ) (s : JniState) (sampleBuffer : Option (List ℕ))
    (sampleRate nChannels : ℤ) (engine : List Pulled) (fault : Option Fault) :
    Outcome × JniState × List Event :=
  if (_init_threading openmp thread true s).1 ≠ 0 then
    (Outcome.returned (-1), (_init_threading openmp thread true s).2, [])
  else
    match thrownIn (Java_net_surina_soundtouch_SoundTouch_processFrame fl openmp thread s
        sampleBuffer sampleRate nChannels engine).2.2 fault with
    | some err =>
      (Outcome.escaped err, (_init_threading openmp thread true s).2,
        eventsUntil (Java_net_surina_soundtouch_SoundTouch_processFrame fl openmp thread s
          sampleBuffer sampleRate nChannels engine).2.2 fault)
    | none =>
      (Outcome.returned 0, (_init_threading openmp thread true s).2,
        (Java_net_surina_soundtouch_SoundTouch_processFrame fl openmp thread s
          sampleBuffer sampleRate nChannels engine).2.2)

/-! ## An engine with a finite queue of ready frames -/

/-- Modelled from the spec: the transform engine as a black box with a
feed/drain contract, here holding the queue `ready` of finished frames. Its
answers to `n` successive pulls of capacity `k`: each pull hands over the first
`min k remaining` frames, and nothing once the queue is empty. -/
def engineAnswers (k : ℕ) : ℕ → List (List ℚ) → List Pulled
  | 0, _ => []
  | n + 1, ready =>
    ⟨((min k ready.length : ℕ) : ℤ), (ready.take k).flatten⟩ ::
      engineAnswers k n (ready.drop k)

/-- Modelled from the spec: the frames the engine of `engineAnswers` still holds
after `n` pulls of capacity `k`. -/
def engineReady (k : ℕ) : ℕ → List (List ℚ) → List (List ℚ)
  | 0, ready => ready
  | n + 1, ready => engineReady k n (ready.drop k)

/-- A rounding function that leaves every value with a 24-bit significand
unchanged (down to the binary32 subnormal step `2 ^ (-149)`), as binary32
rounding and exact arithmetic do. -/
def ExactOn24 (fl : ℚ → ℚ) : Prop :=
  ∀ m k : ℤ, |m| < 2 ^ 24 → -149 ≤ k → fl (m * 2 ^ k) = m * 2 ^ k

/-- A data call of `processFrame` with 17 channels, outside the OpenMP build, on
a fresh state. The engine's `setChannels` (event number 1 of the run) rejects the
channel count with `std::runtime_error`. -/
def tooManyChannels : Outcome × JniState × List Event :=
  Java_net_surina_soundtouch_SoundTouch_processFrame_throwing toFloat32 false 0
    (JniState.init (fun _ => 0)) (some [0, 0, 0, 0]) 44100 17 []
    (some ⟨1, "Error: Illegal number of channels"⟩)

/-! ## Theorems -/


/-! ## Lemmas: integer conversions -/

theorem wrapSigned_of_range (w : ℕ) (hw : 0 < w) (v : ℤ) (h1 : -2 ^ (w - 1) ≤ v)
    (h2 : v < 2 ^ (w - 1)) : wrapSigned w v = v := by
  unfold wrapSigned
  have hpow : (2 : ℤ) ^ w = 2 * 2 ^ (w - 1) := by
    obtain ⟨k, rfl⟩ : ∃ k, w = k + 1 := ⟨w - 1, by omega⟩
    simp [pow_succ, mul_comm]
  rw [Int.emod_eq_of_lt (by linarith) (by linarith)]
  ring

theorem toShort_of_range (v : ℤ) (h1 : -32768 ≤ v) (h2 : v ≤ 32767) : toShort v = v := by
  unfold toShort wrapSigned
  norm_num
  omega

theorem toInt32_of_range (v : ℤ) (h1 : -2147483648 ≤ v) (h2 : v ≤ 2147483647) :
    toInt32 v = v := by
  unfold toInt32 wrapSigned
  norm_num
  omega

theorem toUChar_of_range (v : ℤ) (h1 : 0 ≤ v) (h2 : v ≤ 255) : toUChar v = v := by
  unfold toUChar
  omega

theorem signExtend24_eq (raw : ℤ) : signExtend24 raw = wrapSigned 24 raw := by
  unfold signExtend24 ofBits32 bits32 wrapSigned
  have hmask : (0x00ffffff : ℕ) = 2 ^ 24 - 1 := by norm_num
  have hbit : (0x00800000 : ℕ) = 2 ^ 23 := by norm_num
  simp only [hmask, hbit, Nat.and_pow_two_sub_one_eq_mod, Nat.and_two_pow,
    Nat.testBit_to_div_mod]
  set u : ℕ := (raw % 2 ^ 32).toNat % 2 ^ 24 with hu
  have hu24 : u < 2 ^ 24 := Nat.mod_lt _ (by norm_num)
  by_cases hb : u / 2 ^ 23 % 2 = 1
  · have hor : u ||| 0xff000000 = 0xff000000 + u := by
      rw [Nat.lor_comm]
      have := Nat.mul_add_lt_is_or hu24 255
      norm_num at this ⊢
      exact this.symm
    simp only [hb, decide_True, Bool.toNat_true, one_mul, ne_eq, pow_eq_zero_iff,
      OfNat.ofNat_ne_zero, not_false_eq_true, ite_true, hor]
    norm_num at hu24 hb ⊢
    omega
  · simp only [hb, decide_False, Bool.toNat_false, zero_mul, ne_eq, not_true_eq_false,
      ite_false, Nat.or_zero]
    norm_num at hu24 hb ⊢
    omega

theorem signExtend24_packed24 (value : ℤ) (b3 : ℕ) :
    signExtend24 (packed24 value b3) = wrapSigned 24 value := by
  rw [signExtend24_eq]
  unfold packed24 ofBits32 load32 byteAt bits32 wrapSigned
  norm_num
  omega

/-! ## Lemmas: truncation and saturation -/

theorem truncToInt_intCast (n : ℤ) : truncToInt (n : ℚ) = n := by
  unfold truncToInt
  split <;> simp

theorem truncToInt_bounds (q : ℚ) (lo hi : ℤ) (h1 : (lo : ℚ) ≤ q) (h2 : q ≤ hi) :
    lo ≤ truncToInt q ∧ truncToInt q ≤ hi := by
  unfold truncToInt
  split
  · exact ⟨Int.le_floor.mpr h1, Int.floor_le_iff.mpr (by linarith)⟩
  · exact ⟨Int.le_ceil_iff.mpr (by linarith), Int.ceil_le.mpr h2⟩

theorem truncToInt_eq_zero (q : ℚ) (h1 : -1 < q) (h2 : q < 1) : truncToInt q = 0 := by
  unfold truncToInt
  split
  · rw [Int.floor_eq_iff]; constructor <;> simp <;> linarith
  · rw [Int.ceil_eq_iff]; constructor <;> simp <;> linarith

theorem saturate_range (t : ℚ) (lo hi : ℤ) (hle : lo ≤ hi) :
    lo ≤ saturate t lo hi ∧ saturate t lo hi ≤ hi := by
  have hle' : (lo : ℚ) ≤ hi := by exact_mod_cast hle
  unfold saturate
  split_ifs with h1 h2
  · rw [truncToInt_intCast]; exact ⟨hle, le_refl _⟩
  · rw [truncToInt_intCast]; exact ⟨le_refl _, hle⟩
  · exact truncToInt_bounds t lo hi (not_lt.mp h2) (not_lt.mp h1)

theorem roundHalfEven_intCast (n : ℤ) : roundHalfEven (n : ℚ) = n := by
  unfold roundHalfEven
  simp

theorem roundHalfEven_le (t : ℚ) (n : ℤ) (h : t ≤ n) : roundHalfEven t ≤ n := by
  have hf : ⌊t⌋ ≤ n := by
    have : ((⌊t⌋ : ℤ) : ℚ) ≤ n := le_trans (Int.floor_le t) h
    exact_mod_cast this
  have hlt : 0 < t - ⌊t⌋ → ⌊t⌋ + 1 ≤ n := by
    intro hpos
    have : ((⌊t⌋ : ℤ) : ℚ) < n := by linarith
    have : ⌊t⌋ < n := by exact_mod_cast this
    omega
  unfold roundHalfEven
  split_ifs with h1 h2 h3
  · exact hf
  · exact hlt (by linarith)
  · exact hf
  · exact hlt (by linarith)

theorem le_roundHalfEven (t : ℚ) (n : ℤ) (h : (n : ℚ) ≤ t) : n ≤ roundHalfEven t := by
  have hf : n ≤ ⌊t⌋ := Int.le_floor.mpr h
  unfold roundHalfEven
  split_ifs <;> omega

theorem roundHalfEven_err (t : ℚ) : |(roundHalfEven t : ℚ) - t| ≤ 1 / 2 := by
  have h1 := Int.floor_le t
  have h2 := Int.lt_floor_add_one t
  unfold roundHalfEven
  rw [abs_le]
  split_ifs with h3 h4 h5 <;> push_cast <;> constructor <;> linarith

theorem float32Exp_spec (q : ℚ) (hq : q ≠ 0) :
    (2 : ℚ) ^ Int.log 2 |q| ≤ |q| ∧ |q| < (2 : ℚ) ^ (Int.log 2 |q| + 1) := by
  have hpos : 0 < |q| := abs_pos.mpr hq
  have h1 := Int.zpow_log_le_self (b := 2) (by norm_num) hpos
  have h2 := Int.lt_zpow_succ_log_self (b := 2) (by norm_num) |q|
  exact ⟨by exact_mod_cast h1, by exact_mod_cast h2⟩

theorem float32Exp_le (q : ℚ) (hq : q ≠ 0) (k : ℤ) (hk : -126 ≤ k)
    (h : |q| < (2 : ℚ) ^ (k + 1)) : float32Exp q ≤ k := by
  have hpos : 0 < |q| := abs_pos.mpr hq
  have h' : |q| < ((2 : ℕ) : ℚ) ^ (k + 1) := by exact_mod_cast h
  have := (Int.lt_zpow_iff_log_lt (b := 2) (by norm_num) hpos).mp h'
  unfold float32Exp
  exact max_le (by omega) hk

theorem le_float32Exp (q : ℚ) (k : ℤ) (h : (2 : ℚ) ^ k ≤ |q|) : k ≤ float32Exp q := by
  have hpos : 0 < |q| := lt_of_lt_of_le (by positivity) h
  have h' : ((2 : ℕ) : ℚ) ^ k ≤ |q| := by exact_mod_cast h
  have := (Int.zpow_le_iff_le_log (b := 2) (by norm_num) hpos).mp h'
  unfold float32Exp
  exact le_max_of_le_left this

theorem toFloat32_of_intCast_div (q : ℚ) (n : ℤ)
    (h : q / 2 ^ (float32Exp q - 23) = n) : toFloat32 q = q := by
  unfold toFloat32
  split_ifs with h0
  · exact h0.symm
  · rw [h, roundHalfEven_intCast, ← h]
    have : (2 : ℚ) ^ (float32Exp q - 23) ≠ 0 := by positivity
    field_simp

theorem toFloat32_of_mantissa (m k : ℤ) (hm : |m| < 2 ^ 24) (hk : -149 ≤ k) :
    toFloat32 (m * 2 ^ k) = m * 2 ^ k := by
  by_cases h0 : m = 0
  · simp [h0, toFloat32]
  have hq : (m : ℚ) * 2 ^ k ≠ 0 := by
    have : (m : ℚ) ≠ 0 := by exact_mod_cast h0
    positivity
  have he : float32Exp ((m : ℚ) * 2 ^ k) ≤ k + 23 := by
    apply float32Exp_le _ hq _ (by omega)
    rw [abs_mul, abs_of_pos (by positivity : (0 : ℚ) < 2 ^ k)]
    have hm' : |(m : ℚ)| < 2 ^ (24 : ℤ) := by
      have : ((|m| : ℤ) : ℚ) < ((2 ^ 24 : ℤ) : ℚ) := by exact_mod_cast hm
      rw [Int.cast_abs] at this
      norm_num at this ⊢
      exact this
    have : (2 : ℚ) ^ (k + 23 + 1) = 2 ^ (24 : ℤ) * 2 ^ k := by
      rw [← zpow_add₀ (by norm_num : (2 : ℚ) ≠ 0)]
      congr 1
      ring
    rw [this]
    exact mul_lt_mul_of_pos_right hm' (by positivity)
  set e := float32Exp ((m : ℚ) * 2 ^ k) with hedef
  obtain ⟨d, hd⟩ : ∃ d : ℕ, k - (e - 23) = d := ⟨(k - (e - 23)).toNat, by omega⟩
  apply toFloat32_of_intCast_div _ (m * 2 ^ d)
  rw [← hedef, mul_div_assoc, ← zpow_sub₀ (by norm_num : (2 : ℚ) ≠ 0), hd]
  push_cast
  rw [zpow_natCast]

theorem toFloat32_err (q : ℚ) : |toFloat32 q - q| ≤ 2 ^ (float32Exp q - 24) := by
  unfold toFloat32
  split_ifs with h0
  · subst h0
    simp
    positivity
  · have hpos : (0 : ℚ) < 2 ^ (float32Exp q - 23) := by positivity
    have h := roundHalfEven_err (q / 2 ^ (float32Exp q - 23))
    have hsplit : (2 : ℚ) ^ (float32Exp q - 24) = 1 / 2 * 2 ^ (float32Exp q - 23) := by
      rw [show float32Exp q - 24 = (float32Exp q - 23) + (-1) by ring,
        zpow_add₀ (by norm_num : (2 : ℚ) ≠ 0)]
      norm_num
      ring
    have hq : q = q / 2 ^ (float32Exp q - 23) * 2 ^ (float32Exp q - 23) := by
      field_simp
    rw [hsplit]
    calc |(roundHalfEven (q / 2 ^ (float32Exp q - 23)) : ℚ) * 2 ^ (float32Exp q - 23) - q|
        = |((roundHalfEven (q / 2 ^ (float32Exp q - 23)) : ℚ) - q / 2 ^ (float32Exp q - 23))
            * 2 ^ (float32Exp q - 23)| := by
          congr 1
          rw [sub_mul]
          congr 1
      _ = |(roundHalfEven (q / 2 ^ (float32Exp q - 23)) : ℚ) - q / 2 ^ (float32Exp q - 23)|
            * 2 ^ (float32Exp q - 23) := by
          rw [abs_mul, abs_of_pos hpos]
      _ ≤ 1 / 2 * 2 ^ (float32Exp q - 23) := mul_le_mul_of_nonneg_right h hpos.le

theorem neg126_le_float32Exp (q : ℚ) : -126 ≤ float32Exp q := le_max_right _ _

theorem abs_lt_two_zpow_float32Exp (q : ℚ) : |q| < (2 : ℚ) ^ (float32Exp q + 1) := by
  by_cases hq : q = 0
  · subst hq
    simp
    positivity
  · refine lt_of_lt_of_le (float32Exp_spec q hq).2 ?_
    exact zpow_le_zpow_right₀ (by norm_num) (by unfold float32Exp; simp)

theorem two_zpow_le_toFloat32 (q : ℚ) (k : ℤ) (hk : -126 ≤ k) (h : (2 : ℚ) ^ k ≤ q) :
    (2 : ℚ) ^ k ≤ toFloat32 q := by
  have hqpos : 0 < q := lt_of_lt_of_le (by positivity) h
  have hq : q ≠ 0 := hqpos.ne'
  have habs : |q| = q := abs_of_pos hqpos
  have hklog : k ≤ Int.log 2 |q| := by
    have h' : ((2 : ℕ) : ℚ) ^ k ≤ |q| := by rw [habs]; exact_mod_cast h
    exact (Int.zpow_le_iff_le_log (b := 2) (by norm_num) (abs_pos.mpr hq)).mp h'
  have he : float32Exp q = Int.log 2 |q| := by
    unfold float32Exp
    exact max_eq_left (by omega)
  have hlow : (2 : ℚ) ^ float32Exp q ≤ q := by
    rw [he]
    exact le_of_le_of_eq (float32Exp_spec q hq).1 habs
  have hulp : (0 : ℚ) < 2 ^ (float32Exp q - 23) := by positivity
  have hsplit : (2 : ℚ) ^ float32Exp q = 8388608 * 2 ^ (float32Exp q - 23) := by
    rw [show (8388608 : ℚ) = 2 ^ (23 : ℤ) by norm_num,
      ← zpow_add₀ (by norm_num : (2 : ℚ) ≠ 0)]
    congr 1
    ring
  have hr : (8388608 : ℤ) ≤ roundHalfEven (q / 2 ^ (float32Exp q - 23)) := by
    apply le_roundHalfEven
    rw [le_div_iff₀ hulp]
    push_cast
    rw [← hsplit]
    exact hlow
  have hr' : (8388608 : ℚ) ≤ (roundHalfEven (q / 2 ^ (float32Exp q - 23)) : ℚ) := by
    exact_mod_cast hr
  unfold toFloat32
  rw [if_neg hq]
  calc (2 : ℚ) ^ k ≤ 2 ^ float32Exp q := zpow_le_zpow_right₀ (by norm_num) (he ▸ hklog)
    _ = 8388608 * 2 ^ (float32Exp q - 23) := hsplit
    _ ≤ _ := mul_le_mul_of_nonneg_right hr' hulp.le

theorem toFloat32_le_neg_two_zpow (q : ℚ) (k : ℤ) (hk : -126 ≤ k) (h : q ≤ -(2 : ℚ) ^ k) :
    toFloat32 q ≤ -(2 : ℚ) ^ k := by
  have hqneg : q < 0 := lt_of_le_of_lt h (by simp; positivity)
  have hq : q ≠ 0 := hqneg.ne
  have habs : |q| = -q := abs_of_neg hqneg
  have hklog : k ≤ Int.log 2 |q| := by
    have h' : ((2 : ℕ) : ℚ) ^ k ≤ |q| := by
      rw [habs]
      have : (2 : ℚ) ^ k ≤ -q := by linarith
      exact_mod_cast this
    exact (Int.zpow_le_iff_le_log (b := 2) (by norm_num) (abs_pos.mpr hq)).mp h'
  have he : float32Exp q = Int.log 2 |q| := by
    unfold float32Exp
    exact max_eq_left (by omega)
  have hlow : q ≤ -(2 : ℚ) ^ float32Exp q := by
    rw [he]
    have := le_of_le_of_eq (float32Exp_spec q hq).1 habs
    linarith
  have hulp : (0 : ℚ) < 2 ^ (float32Exp q - 23) := by positivity
  have hsplit : (2 : ℚ) ^ float32Exp q = 8388608 * 2 ^ (float32Exp q - 23) := by
    rw [show (8388608 : ℚ) = 2 ^ (23 : ℤ) by norm_num,
      ← zpow_add₀ (by norm_num : (2 : ℚ) ≠ 0)]
    congr 1
    ring
  have hr : roundHalfEven (q / 2 ^ (float32Exp q - 23)) ≤ (-8388608 : ℤ) := by
    apply roundHalfEven_le
    rw [div_le_iff₀ hulp]
    push_cast
    rw [neg_mul, ← hsplit]
    exact hlow
  have hr' : (roundHalfEven (q / 2 ^ (float32Exp q - 23)) : ℚ) ≤ -8388608 := by
    exact_mod_cast hr
  unfold toFloat32
  rw [if_neg hq]
  have hmono : (2 : ℚ) ^ k ≤ 2 ^ float32Exp q :=
    zpow_le_zpow_right₀ (by norm_num) (he ▸ hklog)
  calc _ ≤ -8388608 * 2 ^ (float32Exp q - 23) :=
        mul_le_mul_of_nonneg_right hr' hulp.le
    _ = -(2 : ℚ) ^ float32Exp q := by rw [neg_mul, ← hsplit]
    _ ≤ -(2 : ℚ) ^ k := by linarith

theorem toFloat32_le_two_zpow (q : ℚ) (k : ℤ) (hk : -126 ≤ k) (h : q ≤ (2 : ℚ) ^ k) :
    toFloat32 q ≤ (2 : ℚ) ^ k := by
  have hulp : (0 : ℚ) < 2 ^ (float32Exp q - 23) := by positivity
  unfold toFloat32
  split_ifs with h0
  · positivity
  rcases lt_or_gt_of_ne h0 with hneg | hpos
  · have hr : roundHalfEven (q / 2 ^ (float32Exp q - 23)) ≤ (0 : ℤ) := by
      apply roundHalfEven_le
      rw [div_le_iff₀ hulp]
      simp
      exact hneg.le
    have hr' : (roundHalfEven (q / 2 ^ (float32Exp q - 23)) : ℚ) ≤ 0 := by exact_mod_cast hr
    calc _ ≤ (0 : ℚ) := mul_nonpos_of_nonpos_of_nonneg hr' hulp.le
      _ ≤ _ := by positivity
  · have he : float32Exp q ≤ k := by
      apply float32Exp_le q h0 k hk
      rw [abs_of_pos hpos]
      exact lt_of_le_of_lt h (zpow_lt_zpow_right₀ (by norm_num) (by omega))
    obtain ⟨d, hd⟩ : ∃ d : ℕ, k - (float32Exp q - 23) = d :=
      ⟨(k - (float32Exp q - 23)).toNat, by omega⟩
    have hsplit : (2 : ℚ) ^ k = 2 ^ d * 2 ^ (float32Exp q - 23) := by
      rw [← zpow_natCast, ← zpow_add₀ (by norm_num : (2 : ℚ) ≠ 0), ← hd]
      congr 1
      ring
    have hr : roundHalfEven (q / 2 ^ (float32Exp q - 23)) ≤ ((2 ^ d : ℕ) : ℤ) := by
      apply roundHalfEven_le
      rw [div_le_iff₀ hulp]
      push_cast
      rw [← hsplit]
      exact h
    have hr' : (roundHalfEven (q / 2 ^ (float32Exp q - 23)) : ℚ) ≤ (2 : ℚ) ^ d := by
      exact_mod_cast hr
    rw [hsplit]
    exact mul_le_mul_of_nonneg_right hr' hulp.le

theorem neg_two_zpow_le_toFloat32 (q : ℚ) (k : ℤ) (hk : -126 ≤ k) (h : -(2 : ℚ) ^ k ≤ q) :
    -(2 : ℚ) ^ k ≤ toFloat32 q := by
  have hulp : (0 : ℚ) < 2 ^ (float32Exp q - 23) := by positivity
  unfold toFloat32
  split_ifs with h0
  · simp
    positivity
  rcases lt_or_gt_of_ne h0 with hneg | hpos
  · have he : float32Exp q ≤ k := by
      apply float32Exp_le q h0 k hk
      rw [abs_of_neg hneg]
      have : -q ≤ (2 : ℚ) ^ k := by linarith
      exact lt_of_le_of_lt this (zpow_lt_zpow_right₀ (by norm_num) (by omega))
    obtain ⟨d, hd⟩ : ∃ d : ℕ, k - (float32Exp q - 23) = d :=
      ⟨(k - (float32Exp q - 23)).toNat, by omega⟩
    have hsplit : (2 : ℚ) ^ k = 2 ^ d * 2 ^ (float32Exp q - 23) := by
      rw [← zpow_natCast, ← zpow_add₀ (by norm_num : (2 : ℚ) ≠ 0), ← hd]
      congr 1
      ring
    have hr : (-((2 ^ d : ℕ) : ℤ)) ≤ roundHalfEven (q / 2 ^ (float32Exp q - 23)) := by
      apply le_roundHalfEven
      rw [le_div_iff₀ hulp]
      push_cast
      rw [neg_mul, ← hsplit]
      exact h
    have hr' : -((2 : ℚ) ^ d) ≤ (roundHalfEven (q / 2 ^ (float32Exp q - 23)) : ℚ) := by
      exact_mod_cast hr
    rw [hsplit, ← neg_mul]
    exact mul_le_mul_of_nonneg_right hr' hulp.le
  · have hr : (0 : ℤ) ≤ roundHalfEven (q / 2 ^ (float32Exp q - 23)) := by
      apply le_roundHalfEven
      rw [le_div_iff₀ hulp]
      simp
      exact hpos.le
    have hr' : (0 : ℚ) ≤ (roundHalfEven (q / 2 ^ (float32Exp q - 23)) : ℚ) := by
      exact_mod_cast hr
    calc -(2 : ℚ) ^ k ≤ 0 := by simp; positivity
      _ ≤ _ := mul_nonneg hr' hulp.le

theorem toFloat32_mul_two_pow (x : ℚ) (hx : toFloat32 x = x) (n : ℕ) :
    toFloat32 (x * 2 ^ n) = x * 2 ^ n := by
  by_cases h0 : x = 0
  · simp [h0, toFloat32]
  have hy : x * 2 ^ n ≠ 0 := by positivity
  have he : float32Exp (x * 2 ^ n) ≤ float32Exp x + n := by
    apply float32Exp_le _ hy _ (by have := neg126_le_float32Exp x; omega)
    rw [abs_mul, abs_of_pos (by positivity : (0 : ℚ) < 2 ^ n)]
    have h1 := abs_lt_two_zpow_float32Exp x
    have : (2 : ℚ) ^ (float32Exp x + n + 1) = 2 ^ (float32Exp x + 1) * 2 ^ n := by
      rw [← zpow_natCast, ← zpow_add₀ (by norm_num : (2 : ℚ) ≠ 0)]
      congr 1
      ring
    rw [this]
    exact mul_lt_mul_of_pos_right h1 (by positivity)
  obtain ⟨d, hd⟩ : ∃ d : ℕ, float32Exp x + n - float32Exp (x * 2 ^ n) = d :=
    ⟨(float32Exp x + n - float32Exp (x * 2 ^ n)).toNat, by omega⟩
  have hxm : x = (roundHalfEven (x / 2 ^ (float32Exp x - 23)) : ℚ) * 2 ^ (float32Exp x - 23) := by
    have := hx
    unfold toFloat32 at this
    rw [if_neg h0] at this
    exact this.symm
  apply toFloat32_of_intCast_div _ (roundHalfEven (x / 2 ^ (float32Exp x - 23)) * 2 ^ d)
  rw [div_eq_iff (by positivity)]
  push_cast
  rw [mul_assoc, ← zpow_natCast (2 : ℚ) d, ← zpow_add₀ (by norm_num : (2 : ℚ) ≠ 0), ← hd]
  have hexp : float32Exp x + ↑n - float32Exp (x * 2 ^ n) + (float32Exp (x * 2 ^ n) - 23)
      = (float32Exp x - 23) + n := by ring
  rw [hexp, zpow_add₀ (by norm_num : (2 : ℚ) ≠ 0), ← mul_assoc, ← hxm, zpow_natCast]

theorem truncToInt_eq_spec (q : ℚ) : truncToInt q = specTruncTowardZero q := by
  unfold truncToInt specTruncTowardZero
  by_cases h : 0 ≤ q
  · rw [if_pos h, if_neg (not_lt.mpr h)]
  · rw [if_neg h, if_pos (not_le.mp h), Int.floor_neg, neg_neg]

theorem saturate_eq_clamp (t lo hi : ℚ) (hle : lo ≤ hi) :
    saturate t lo hi = truncToInt (max lo (min t hi)) := by
  unfold saturate
  congr 1
  split_ifs with h1 h2
  · rw [min_eq_right h1.le, max_eq_right hle]
  · rw [min_eq_left (not_lt.mp h1), max_eq_left h2.le]
  · rw [min_eq_left (not_lt.mp h1), max_eq_right (not_lt.mp h2)]

theorem toFloat32_abs_lt_one (q : ℚ) (h : |q| ≤ 15 / 16) : |toFloat32 q| < 1 := by
  by_cases h0 : q = 0
  · simp [h0, toFloat32]
  have he : float32Exp q ≤ -1 := by
    apply float32Exp_le q h0 _ (by norm_num)
    norm_num
    linarith
  have herr := toFloat32_err q
  have hpow : (2 : ℚ) ^ (float32Exp q - 24) ≤ 2 ^ (-25 : ℤ) :=
    zpow_le_zpow_right₀ (by norm_num) (by omega)
  have h25 : (2 : ℚ) ^ (-25 : ℤ) < 1 / 16 := by norm_num
  have : |toFloat32 q| ≤ |toFloat32 q - q| + |q| := by
    have := abs_add (toFloat32 q - q) q
    simpa using this
  have h3 : |toFloat32 q - q| < 1 / 16 := lt_of_le_of_lt (le_trans herr hpow) h25
  linarith

theorem encode16_of_le (fl : ℚ → ℚ) (x : ℚ) (h : 32768 ≤ fl (x * 32768)) :
    encode16 fl x = 32767 := by
  have h1 : fl (x * 32768) > 32767 := by linarith
  unfold encode16 saturate
  rw [if_pos h1]
  have : truncToInt (32767 : ℚ) = 32767 := by exact_mod_cast truncToInt_intCast 32767
  rw [this]
  exact toShort_of_range _ (by norm_num) (by norm_num)

theorem encode16_of_ge (fl : ℚ → ℚ) (x : ℚ) (h : fl (x * 32768) ≤ -32768) :
    encode16 fl x = -32768 := by
  have h1 : ¬ fl (x * 32768) > 32767 := by linarith
  have hm : truncToInt (-32768 : ℚ) = -32768 := by exact_mod_cast truncToInt_intCast (-32768)
  unfold encode16 saturate
  rw [if_neg h1]
  split_ifs with h2
  · rw [hm]
    exact toShort_of_range _ (by norm_num) (by norm_num)
  · have : fl (x * 32768) = -32768 := le_antisymm h (not_lt.mp h2)
    rw [this, hm]
    exact toShort_of_range _ (by norm_num) (by norm_num)

/-- C2. 16-bit encoding saturates instead of wrapping: every sample `x ≥ 1`
(such as 2.0) is written as 32767 and every sample `x ≤ -1` (such as -2.0) as
-32768, in binary32 arithmetic and in exact arithmetic. -/
theorem encode16_saturates :
    (∀ x : ℚ, 1 ≤ x → encode16 toFloat32 x = 32767) ∧
    (∀ x : ℚ, x ≤ -1 → encode16 toFloat32 x = -32768) ∧
    (∀ x : ℚ, 1 ≤ x → encode16 id x = 32767) ∧
    (∀ x : ℚ, x ≤ -1 → encode16 id x = -32768) := by
  refine ⟨?_, ?_, fun x hx => encode16_of_le id x (by simp only [id]; linarith),
    fun x hx => encode16_of_ge id x (by simp only [id]; linarith)⟩
  · intro x hx
    apply encode16_of_le
    have := two_zpow_le_toFloat32 (x * 32768) 15 (by norm_num) (by norm_num; linarith)
    norm_num at this
    exact this
  · intro x hx
    apply encode16_of_ge
    have := toFloat32_le_neg_two_zpow (x * 32768) 15 (by norm_num) (by norm_num; linarith)
    norm_num at this
    exact this

/-- Witness of C2 at the samples 2.0 and -2.0. -/
theorem encode16_saturates_witness :
    encode16 toFloat32 2 = 32767 ∧ encode16 toFloat32 (-2) = -32768 :=
  ⟨encode16_saturates.1 2 (by norm_num), encode16_saturates.2.1 (-2) (by norm_num)⟩

theorem encode16_eq_saturate (fl : ℚ → ℚ) (x : ℚ) :
    encode16 fl x = saturate (fl (x * 32768)) (-32768) 32767 := by
  have hr := saturate_range (fl (x * 32768)) (-32768) 32767 (by norm_num)
  simp only [Int.cast_neg, Int.cast_ofNat] at hr
  exact toShort_of_range _ hr.1 hr.2

theorem encode16_eq_zero (fl : ℚ → ℚ) (x : ℚ) (h : |fl (x * 32768)| < 1) :
    encode16 fl x = 0 := by
  rw [abs_lt] at h
  rw [encode16_eq_saturate]
  unfold saturate
  rw [if_neg (by linarith), if_neg (by linarith)]
  exact truncToInt_eq_zero _ h.1 h.2

/-- C3. For every binary32 sample `x` the 16-bit value written by the encoder
is truncate-toward-zero(clamp(32768 * x, -32768, 32767)); the saturated integer
lies in [-32768, 32767], so the cast to `short` does not change it; a sample of
magnitude below 1/32768 is written as 0, never rounded to a nearest ±1 (so are
0.9/32768, -0.9/32768 and the binary32 values nearest to them). The same
equation holds in exact arithmetic for every rational sample. -/
theorem encode16_truncates :
    (∀ x : ℚ, toFloat32 x = x → encode16 toFloat32 x = specEncode16 x) ∧
    (∀ x : ℚ, encode16 id x = specEncode16 x) ∧
    (∀ x : ℚ, -32768 ≤ saturate (toFloat32 (x * 32768)) (-32768) 32767 ∧
      saturate (toFloat32 (x * 32768)) (-32768) 32767 ≤ 32767 ∧
      toShort (saturate (toFloat32 (x * 32768)) (-32768) 32767)
        = saturate (toFloat32 (x * 32768)) (-32768) 32767) ∧
    (∀ x : ℚ, toFloat32 x = x → |x| < 1 / 32768 → encode16 toFloat32 x = 0) ∧
    encode16 toFloat32 (9 / 10 / 32768) = 0 ∧ encode16 toFloat32 (-(9 / 10) / 32768) = 0 ∧
    encode16 toFloat32 (15099494 / 2 ^ 39) = 0 ∧
    encode16 toFloat32 (-15099494 / 2 ^ 39) = 0 := by
  have hscale : ∀ x : ℚ, toFloat32 x = x → toFloat32 (x * 32768) = x * 32768 := by
    intro x hx
    have := toFloat32_mul_two_pow x hx 15
    norm_num at this
    exact this
  refine ⟨?_, ?_, ?_, ?_, ?_, ?_, ?_, ?_⟩
  · intro x hx
    rw [encode16_eq_saturate, hscale x hx, saturate_eq_clamp _ _ _ (by norm_num),
      truncToInt_eq_spec, specEncode16, mul_comm]
  · intro x
    rw [encode16_eq_saturate, id, saturate_eq_clamp _ _ _ (by norm_num),
      truncToInt_eq_spec, specEncode16, mul_comm]
  · intro x
    have hr := saturate_range (toFloat32 (x * 32768)) (-32768) 32767 (by norm_num)
    simp only [Int.cast_neg, Int.cast_ofNat] at hr
    exact ⟨hr.1, hr.2, toShort_of_range _ hr.1 hr.2⟩
  · intro x hx hsmall
    apply encode16_eq_zero
    rw [hscale x hx, abs_mul]
    rw [lt_div_iff₀ (by norm_num)] at hsmall
    simpa using hsmall
  · apply encode16_eq_zero
    apply toFloat32_abs_lt_one
    rw [abs_le]
    constructor <;> norm_num
  · apply encode16_eq_zero
    apply toFloat32_abs_lt_one
    rw [abs_le]
    constructor <;> norm_num
  · apply encode16_eq_zero
    apply toFloat32_abs_lt_one
    rw [abs_le]
    constructor <;> norm_num
  · apply encode16_eq_zero
    apply toFloat32_abs_lt_one
    rw [abs_le]
    constructor <;> norm_num

/-- Witness of C3 at the binary32 sample `15099494 / 2 ^ 39`, the one nearest
to 0.9/32768. -/
theorem encode16_truncates_witness :
    toFloat32 (15099494 / 2 ^ 39) = 15099494 / 2 ^ 39 ∧
    encode16 toFloat32 (15099494 / 2 ^ 39) = specEncode16 (15099494 / 2 ^ 39) ∧
    specEncode16 (15099494 / 2 ^ 39) = 0 := by
  have hrep : toFloat32 (15099494 / 2 ^ 39) = 15099494 / 2 ^ 39 := by
    have := toFloat32_of_mantissa 15099494 (-39) (by norm_num) (by norm_num)
    norm_num at this ⊢
    exact this
  have h := encode16_truncates.1 (15099494 / 2 ^ 39) hrep
  refine ⟨hrep, h, ?_⟩
  rw [← h]
  exact encode16_truncates.2.2.2.1 (15099494 / 2 ^ 39) hrep
    (by rw [abs_lt]; constructor <;> norm_num)

theorem float32Exp_eq (q : ℚ) (k : ℤ) (hk : -126 ≤ k) (h1 : (2 : ℚ) ^ k ≤ |q|)
    (h2 : |q| < (2 : ℚ) ^ (k + 1)) : float32Exp q = k := by
  have hq : q ≠ 0 := by
    intro h0
    rw [h0, abs_zero] at h1
    exact absurd h1 (not_le.mpr (by positivity))
  exact le_antisymm (float32Exp_le q hq k hk h2) (le_float32Exp q k h1)

theorem toFloat32_int32_max : toFloat32 (2147483647 * (1 / 2147483648)) = 1 := by
  have he : float32Exp (2147483647 * (1 / 2147483648)) = -1 := by
    apply float32Exp_eq _ _ (by norm_num)
    · rw [abs_of_pos (by norm_num)]
      norm_num
    · rw [abs_of_pos (by norm_num)]
      norm_num
  unfold toFloat32
  rw [if_neg (by norm_num), he]
  have hfloor : ⌊(2147483647 * (1 / 2147483648) / 2 ^ (-1 - 23 : ℤ) : ℚ)⌋ = 16777215 := by
    rw [Int.floor_eq_iff]
    constructor <;> norm_num
  unfold roundHalfEven
  rw [hfloor]
  norm_num

/-- The literal `2147483647.0f` of the encoder is the binary32 value `2 ^ 31`. -/
theorem toFloat32_literal_int_max : toFloat32 2147483647 = 2147483648 := by
  have he : float32Exp 2147483647 = 30 := by
    apply float32Exp_eq _ _ (by norm_num)
    · rw [abs_of_pos (by norm_num)]
      norm_num
    · rw [abs_of_pos (by norm_num)]
      norm_num
  unfold toFloat32
  rw [if_neg (by norm_num), he]
  have hfloor : ⌊(2147483647 / 2 ^ (30 - 23 : ℤ) : ℚ)⌋ = 16777215 := by
    rw [Int.floor_eq_iff]
    constructor <;> norm_num
  unfold roundHalfEven
  rw [hfloor]
  norm_num

/-- C4, counterexample. The largest 32-bit raw value decodes to the binary32
value 1.0: not `v / 2147483648`, and outside the half-open range `[-1, 1)`. -/
theorem decode32_int_max_is_one :
    decode32 toFloat32 2147483647 = 1 ∧
    decode32 toFloat32 2147483647 ≠ 2147483647 / 2147483648 ∧
    ¬ decode32 toFloat32 2147483647 < 1 := by
  have h : decode32 toFloat32 2147483647 = 1 := by
    unfold decode32
    exact_mod_cast toFloat32_int32_max
  rw [h]
  norm_num

/-- C4, amended. An 8-bit unsigned `v` decodes to exactly `(v - 128) / 128` and
a 16-bit signed `v` to exactly `v / 32768`, both in `[-1, 1)`. A 32-bit signed
`v` decodes to the binary32 rounding of `v / 2147483648`: within `2 ^ (-25)` of
it, equal to it whenever `v` has at most 24 significant bits (`v = m * 2 ^ j`
with `|m| < 2 ^ 24`), and in the closed range `[-1, 1]`. -/
theorem decode_scales :
    (∀ v : ℤ, 0 ≤ v → v ≤ 255 →
      decode8 toFloat32 v = (v - 128) / 128 ∧
      -1 ≤ decode8 toFloat32 v ∧ decode8 toFloat32 v < 1) ∧
    (∀ v : ℤ, -32768 ≤ v → v ≤ 32767 →
      decode16 toFloat32 v = v / 32768 ∧
      -1 ≤ decode16 toFloat32 v ∧ decode16 toFloat32 v < 1) ∧
    (∀ v : ℤ, -2147483648 ≤ v → v ≤ 2147483647 →
      |decode32 toFloat32 v - v / 2147483648| ≤ 1 / 2 ^ 25 ∧
      -1 ≤ decode32 toFloat32 v ∧ decode32 toFloat32 v ≤ 1) ∧
    (∀ (m : ℤ) (j : ℕ), |m| < 2 ^ 24 →
      decode32 toFloat32 (m * 2 ^ j) = (m * 2 ^ j : ℤ) / 2147483648) := by
  refine ⟨?_, ?_, ?_, ?_⟩
  · intro v h1 h2
    have hv1 : (0 : ℚ) ≤ v := by exact_mod_cast h1
    have hv2 : (v : ℚ) ≤ 255 := by exact_mod_cast h2
    have hrep : decode8 toFloat32 v = (v - 128) / 128 := by
      have := toFloat32_of_mantissa (v - 128) (-7) (by rw [abs_lt]; constructor <;> omega)
        (by norm_num)
      unfold decode8
      have hform : (v : ℚ) * (1 / 128) - 1 = ((v - 128 : ℤ) : ℚ) * 2 ^ (-7 : ℤ) := by
        push_cast
        norm_num
        ring
      rw [hform, this]
      push_cast
      norm_num
      ring
    rw [hrep]
    refine ⟨rfl, ?_, ?_⟩
    · rw [le_div_iff₀ (by norm_num)]; linarith
    · rw [div_lt_iff₀ (by norm_num)]; linarith
  · intro v h1 h2
    have hv1 : (-32768 : ℚ) ≤ v := by exact_mod_cast h1
    have hv2 : (v : ℚ) ≤ 32767 := by exact_mod_cast h2
    have hrep : decode16 toFloat32 v = v / 32768 := by
      have := toFloat32_of_mantissa v (-15) (by rw [abs_lt]; constructor <;> omega)
        (by norm_num)
      unfold decode16
      have hform : (v : ℚ) * (1 / 32768) = (v : ℚ) * 2 ^ (-15 : ℤ) := by
        norm_num
      rw [hform, this]
      norm_num
      ring
    rw [hrep]
    refine ⟨rfl, ?_, ?_⟩
    · rw [le_div_iff₀ (by norm_num)]; linarith
    · rw [div_lt_iff₀ (by norm_num)]; linarith
  · intro v h1 h2
    have hv1 : (-2147483648 : ℚ) ≤ v := by exact_mod_cast h1
    have hv2 : (v : ℚ) ≤ 2147483647 := by exact_mod_cast h2
    unfold decode32
    have hq1 : -(2 : ℚ) ^ (0 : ℤ) ≤ (v : ℚ) * (1 / 2147483648) := by
      norm_num
      linarith
    have hq2 : (v : ℚ) * (1 / 2147483648) ≤ (2 : ℚ) ^ (0 : ℤ) := by
      norm_num
      linarith
    have hlo := neg_two_zpow_le_toFloat32 _ 0 (by norm_num) hq1
    have hhi := toFloat32_le_two_zpow _ 0 (by norm_num) hq2
    norm_num at hlo hhi
    refine ⟨?_, by norm_num; exact hlo, by norm_num; exact hhi⟩
    by_cases hmin : v = -2147483648
    · have := toFloat32_of_mantissa (-1) 0 (by norm_num) (by norm_num)
      subst hmin
      norm_num at this ⊢
      rw [this]
      norm_num
    by_cases h0 : v = 0
    · subst h0
      simp [toFloat32]
    have hvq : (v : ℚ) ≠ 0 := by exact_mod_cast h0
    have hv1' : (-2147483647 : ℚ) ≤ v := by
      have : -2147483647 ≤ v := by omega
      exact_mod_cast this
    have he : float32Exp ((v : ℚ) * (1 / 2147483648)) ≤ -1 := by
      apply float32Exp_le _ (by positivity) _ (by norm_num)
      rw [abs_lt]
      constructor <;> norm_num <;> linarith
    have herr := toFloat32_err ((v : ℚ) * (1 / 2147483648))
    have hpow : (2 : ℚ) ^ (float32Exp ((v : ℚ) * (1 / 2147483648)) - 24) ≤ 2 ^ (-25 : ℤ) :=
      zpow_le_zpow_right₀ (by norm_num) (by omega)
    have h25 : (2 : ℚ) ^ (-25 : ℤ) = 1 / 2 ^ 25 := by norm_num
    have hdiv : (v : ℚ) / 2147483648 = (v : ℚ) * (1 / 2147483648) := by ring
    rw [← h25, hdiv]
    exact le_trans herr hpow
  · intro m j hm
    unfold decode32
    have := toFloat32_of_mantissa m ((j : ℤ) - 31) hm (by omega)
    have hform : (((m * 2 ^ j : ℤ) : ℚ)) * (1 / 2147483648) = (m : ℚ) * 2 ^ ((j : ℤ) - 31) := by
      rw [zpow_sub₀ (by norm_num : (2 : ℚ) ≠ 0)]
      push_cast
      norm_num
      ring
    rw [hform, this, ← hform]
    ring

/-- Witness of the amended C4 at the raw values 255, -32768 and 2147483647. -/
theorem decode_scales_witness :
    decode8 toFloat32 255 = 127 / 128 ∧ decode16 toFloat32 (-32768) = -1 ∧
    decode32 toFloat32 2147483647 ≤ 1 ∧ decode32 toFloat32 (3 * 2 ^ 29) = 3 / 4 := by
  refine ⟨?_, ?_, ?_, ?_⟩
  · have := (decode_scales.1 255 (by norm_num) (by norm_num)).1
    norm_num at this ⊢
    exact this
  · have := (decode_scales.2.1 (-32768) (by norm_num) (by norm_num)).1
    norm_num at this ⊢
    exact this
  · exact (decode_scales.2.2.1 2147483647 (by norm_num) (by norm_num)).2.2
  · have := decode_scales.2.2.2 3 29 (by norm_num)
    norm_num at this ⊢
    exact this

/-! ## Error slot -/

/-- C5. The error slot is a destructive single-slot read: with no error set
`getErrorString` returns the empty string; after `_setErrmsg m`, also after
earlier sets, it returns exactly `m` and leaves the slot empty, so the next
call returns the empty string. -/
theorem getErrorString_destructive_read :
    (∀ tls : ℕ → ℕ,
      (Java_net_surina_soundtouch_SoundTouch_getErrorString (JniState.init tls)).1 = "") ∧
    (∀ (s : JniState) (earlier : List String) (m : String),
      (Java_net_surina_soundtouch_SoundTouch_getErrorString
        (_setErrmsg m (earlier.foldl (fun st x => _setErrmsg x st) s))).1 = m ∧
      (Java_net_surina_soundtouch_SoundTouch_getErrorString
        (_setErrmsg m (earlier.foldl (fun st x => _setErrmsg x st) s))).2.errMsg = "" ∧
      (Java_net_surina_soundtouch_SoundTouch_getErrorString
        (Java_net_surina_soundtouch_SoundTouch_getErrorString
          (_setErrmsg m (earlier.foldl (fun st x => _setErrmsg x st) s))).2).1 = "") :=
  ⟨fun _ => rfl, fun _ _ _ => ⟨rfl, rfl, rfl⟩⟩

/-! ## Thread-local bridge -/

theorem initThreading_cache_eq (thread : ℕ) (warn : Bool) (s : JniState) :
    (_init_threading true thread warn s).2.p_gomp_tls =
      if s.gomp_tls thread = 0 then s.p_gomp_tls else s.gomp_tls thread := by
  unfold _init_threading _setErrmsg
  by_cases h : s.gomp_tls thread = 0 <;> by_cases hw : warn = true <;>
    by_cases hc : s.p_gomp_tls = 0 <;> simp [h, hw, hc]

theorem initThreading_tls_eq (thread : ℕ) (warn : Bool) (s : JniState) :
    (_init_threading true thread warn s).2.gomp_tls =
      if s.gomp_tls thread = 0 then Function.update s.gomp_tls thread s.p_gomp_tls
      else s.gomp_tls := by
  unfold _init_threading _setErrmsg
  by_cases h : s.gomp_tls thread = 0 <;> by_cases hw : warn = true <;>
    by_cases hc : s.p_gomp_tls = 0 <;> simp [h, hw, hc]

theorem initThreading_status_eq (thread : ℕ) (warn : Bool) (s : JniState) :
    (_init_threading true thread warn s).1 =
      if warn = true ∧ s.gomp_tls thread = 0 ∧ s.p_gomp_tls = 0 then -1 else 0 := by
  unfold _init_threading _setErrmsg
  by_cases h : s.gomp_tls thread = 0 <;> by_cases hw : warn = true <;>
    by_cases hc : s.p_gomp_tls = 0 <;> simp [h, hw, hc]

theorem initThreading_errMsg_eq (thread : ℕ) (warn : Bool) (s : JniState) :
    (_init_threading true thread warn s).2.errMsg =
      if warn = true ∧ s.gomp_tls thread = 0 ∧ s.p_gomp_tls = 0 then threadingErrMsg
      else s.errMsg := by
  unfold _init_threading _setErrmsg
  by_cases h : s.gomp_tls thread = 0 <;> by_cases hw : warn = true <;>
    by_cases hc : s.p_gomp_tls = 0 <;> simp [h, hw, hc]

theorem runInitThreading_cons (c : ℕ × Bool) (calls : List (ℕ × Bool)) (s : JniState) :
    runInitThreading true (c :: calls) s =
      runInitThreading true calls (_init_threading true c.1 c.2 s).2 := rfl

theorem runInitThreading_cache_ne_zero (calls : List (ℕ × Bool)) (s : JniState)
    (h : s.p_gomp_tls ≠ 0) : (runInitThreading true calls s).p_gomp_tls ≠ 0 := by
  induction calls generalizing s with
  | nil => exact h
  | cons c cs ih =>
    rw [runInitThreading_cons]
    apply ih
    rw [initThreading_cache_eq]
    split_ifs with h0
    · exact h
    · exact h0

theorem runInitThreading_same_value (p : ℕ) (threads : ℕ → Prop) (calls : List (ℕ × Bool))
    (s : JniState) (hin : ∀ c ∈ calls, threads c.1) (hc : s.p_gomp_tls = p)
    (htls : ∀ t, threads t → s.gomp_tls t = 0 ∨ s.gomp_tls t = p) :
    (runInitThreading true calls s).p_gomp_tls = p := by
  induction calls generalizing s with
  | nil => exact hc
  | cons c cs ih =>
    rw [runInitThreading_cons]
    have hc1 := htls c.1 (hin c (List.mem_cons_self _ _))
    apply ih _ (fun d hd => hin d (List.mem_cons_of_mem _ hd))
    · rw [initThreading_cache_eq]
      split_ifs with h0
      · exact hc
      · rcases hc1 with h | h
        · exact absurd h h0
        · exact h
    · intro t ht
      rw [initThreading_tls_eq]
      split_ifs with h0
      · by_cases hte : t = c.1
        · subst hte
          rw [Function.update_same]
          rcases Nat.eq_zero_or_pos s.p_gomp_tls with hz | _
          · exact Or.inl hz
          · exact Or.inr hc
        · rw [Function.update_noteq hte]
          exact htls t ht
      · exact htls t ht

/-- C6, counterexample. Thread 0 (value 1) primes the cache through
`getVersionString`; thread 1 (value 2) then calls `_init_threading`; the later
strict call of thread 2, which lacks the resource, returns 0 but leaves it with
the value 2, not 1. -/
theorem init_threading_installs_latest_value :
    threeThreads.gomp_tls 0 = 1 ∧
    (runInitThreading true [(1, false)]
      (Java_net_surina_soundtouch_SoundTouch_getVersionString true 0 threeThreads)).gomp_tls 2
        = 0 ∧
    (_init_threading true 2 true (runInitThreading true [(1, false)]
      (Java_net_surina_soundtouch_SoundTouch_getVersionString true 0 threeThreads))).1 = 0 ∧
    (_init_threading true 2 true (runInitThreading true [(1, false)]
      (Java_net_surina_soundtouch_SoundTouch_getVersionString true 0 threeThreads))).2.gomp_tls 2
        = 2 := by
  refine ⟨rfl, ?_, ?_, ?_⟩ <;> decide

/-- C6, amended. In the OpenMP build, once `_init_threading(false)` has run on a
context whose thread-local resource is a non-empty `p`, every later
`_init_threading(true)` on a context that lacks the resource returns 0 and
leaves that context with the value cached at that time, which is non-empty; it
is `p` provided every intervening `_init_threading` call came from a context
whose resource was empty or `p`. -/
theorem init_threading_installs_cache (s : JniState) (t p : ℕ) (hp : s.gomp_tls t = p)
    (hne : p ≠ 0) (calls : List (ℕ × Bool)) (t' : ℕ)
    (hlack : (runInitThreading true calls
      (Java_net_surina_soundtouch_SoundTouch_getVersionString true t s)).gomp_tls t' = 0) :
    (_init_threading true t' true (runInitThreading true calls
      (Java_net_surina_soundtouch_SoundTouch_getVersionString true t s))).1 = 0 ∧
    (_init_threading true t' true (runInitThreading true calls
      (Java_net_surina_soundtouch_SoundTouch_getVersionString true t s))).2.gomp_tls t' =
      (runInitThreading true calls
        (Java_net_surina_soundtouch_SoundTouch_getVersionString true t s)).p_gomp_tls ∧
    (runInitThreading true calls
      (Java_net_surina_soundtouch_SoundTouch_getVersionString true t s)).p_gomp_tls ≠ 0 ∧
    ((∀ c ∈ calls, s.gomp_tls c.1 = 0 ∨ s.gomp_tls c.1 = p) →
      (_init_threading true t' true (runInitThreading true calls
        (Java_net_surina_soundtouch_SoundTouch_getVersionString true t s))).2.gomp_tls t' = p) := by
  have hpt : s.gomp_tls t ≠ 0 := by rw [hp]; exact hne
  have hprime_cache :
      (Java_net_surina_soundtouch_SoundTouch_getVersionString true t s).p_gomp_tls = p := by
    unfold Java_net_surina_soundtouch_SoundTouch_getVersionString
    rw [initThreading_cache_eq, if_neg hpt, hp]
  have hprime_tls :
      (Java_net_surina_soundtouch_SoundTouch_getVersionString true t s).gomp_tls
        = s.gomp_tls := by
    unfold Java_net_surina_soundtouch_SoundTouch_getVersionString
    rw [initThreading_tls_eq, if_neg hpt]
  have hcache := runInitThreading_cache_ne_zero calls
    (Java_net_surina_soundtouch_SoundTouch_getVersionString true t s)
    (by rw [hprime_cache]; exact hne)
  have hinst : (_init_threading true t' true (runInitThreading true calls
      (Java_net_surina_soundtouch_SoundTouch_getVersionString true t s))).2.gomp_tls t' =
      (runInitThreading true calls
        (Java_net_surina_soundtouch_SoundTouch_getVersionString true t s)).p_gomp_tls := by
    rw [initThreading_tls_eq, if_pos hlack, Function.update_same]
  refine ⟨?_, hinst, hcache, ?_⟩
  · rw [initThreading_status_eq, if_neg]
    intro h
    exact hcache h.2.2
  · intro hcalls
    rw [hinst]
    apply runInitThreading_same_value p (fun th => s.gomp_tls th = 0 ∨ s.gomp_tls th = p) calls _
      (fun c hc => hcalls c hc) hprime_cache
    intro th hth
    rw [hprime_tls]
    exact hth

/-- Witness of the amended C6: thread 0 holds 5, thread 0 primes, threads 1 and 0
call again, then thread 2 makes the strict call. -/
theorem init_threading_installs_cache_witness :
    (_init_threading true 2 true (runInitThreading true [(1, true), (0, false)]
      (Java_net_surina_soundtouch_SoundTouch_getVersionString true 0 oneThread))).1 = 0 ∧
    (_init_threading true 2 true (runInitThreading true [(1, true), (0, false)]
      (Java_net_surina_soundtouch_SoundTouch_getVersionString true 0 oneThread))).2.gomp_tls 2
        = 5 := by
  have h := init_threading_installs_cache oneThread 0 5 rfl (by decide)
    [(1, true), (0, false)] 2 (by decide)
  exact ⟨h.1, h.2.2.2 (by decide)⟩

/-- C7. In the OpenMP build `_init_threading(warn)` returns -1 exactly when
`warn` is set, the calling context lacks the thread-local resource and the
process-wide cache is empty; in exactly that case the error slot becomes the
threading message; in every other case it returns 0 and leaves the error slot
unchanged. -/
theorem init_threading_fails_iff (thread : ℕ) (warn : Bool) (s : JniState) :
    ((_init_threading true thread warn s).1 = -1 ↔
      (warn = true ∧ s.gomp_tls thread = 0 ∧ s.p_gomp_tls = 0)) ∧
    ((_init_threading true thread warn s).1 =
      if warn = true ∧ s.gomp_tls thread = 0 ∧ s.p_gomp_tls = 0 then -1 else 0) ∧
    ((_init_threading true thread warn s).2.errMsg =
      if warn = true ∧ s.gomp_tls thread = 0 ∧ s.p_gomp_tls = 0 then threadingErrMsg
      else s.errMsg) := by
  refine ⟨?_, initThreading_status_eq thread warn s, initThreading_errMsg_eq thread warn s⟩
  rw [initThreading_status_eq]
  split_ifs with h
  · simp [h]
  · simp [h]

/-- C8, counterexample. With the value 1 cached, a call from a context holding
the value 2 changes the cache to 2. -/
theorem init_threading_overwrites_cache :
    cachedOther.p_gomp_tls = 1 ∧ cachedOther.gomp_tls 0 = 2 ∧
    (_init_threading true 0 false cachedOther).2.p_gomp_tls = 2 := by
  refine ⟨rfl, rfl, ?_⟩
  decide

/-- C8, amended. The cache is last-writer-wins: a call from a context whose
resource is non-empty sets the cache to that context's value, a call from a
context that lacks the resource leaves the cache as it is. So once the cache is
non-empty it stays non-empty, and it is unchanged by every call from a context
whose resource is empty or equal to the cached value. -/
theorem init_threading_cache_update (thread : ℕ) (warn : Bool) (s : JniState) :
    ((_init_threading true thread warn s).2.p_gomp_tls =
      if s.gomp_tls thread = 0 then s.p_gomp_tls else s.gomp_tls thread) ∧
    (s.p_gomp_tls ≠ 0 → (_init_threading true thread warn s).2.p_gomp_tls ≠ 0) ∧
    (s.gomp_tls thread = 0 ∨ s.gomp_tls thread = s.p_gomp_tls →
      (_init_threading true thread warn s).2.p_gomp_tls = s.p_gomp_tls) := by
  refine ⟨initThreading_cache_eq thread warn s, ?_, ?_⟩
  · intro h
    rw [initThreading_cache_eq]
    split_ifs with h0
    · exact h
    · exact h0
  · intro h
    rw [initThreading_cache_eq]
    split_ifs with h0
    · rfl
    · rcases h with h | h
      · exact absurd h h0
      · exact h

/-- Witness of the amended C8: with 1 cached, a strict call from a context
lacking the resource keeps the cache at 1. -/
theorem init_threading_cache_update_witness :
    (_init_threading true 3 true cachedOnly).2.p_gomp_tls ≠ 0 ∧
    (_init_threading true 3 true cachedOnly).2.p_gomp_tls = 1 :=
  ⟨(init_threading_cache_update 3 true cachedOnly).2.1 (by decide),
    (init_threading_cache_update 3 true cachedOnly).2.2 (Or.inl rfl)⟩

/-! ## Drain loops -/

/-- An engine that returns at most the requested `BUFF_SIZE / nChannels` frames
returns at most `BUFF_SIZE` elements. -/
theorem mul_le_buff_size (n nChannels : ℤ) (hch : 0 < nChannels)
    (hn : n ≤ Int.tdiv BUFF_SIZE nChannels) : n * nChannels ≤ 4096 := by
  have hdiv : Int.tdiv BUFF_SIZE nChannels = BUFF_SIZE / nChannels :=
    Int.tdiv_eq_ediv (by unfold BUFF_SIZE; norm_num) hch.le
  rw [hdiv] at hn
  calc n * nChannels ≤ BUFF_SIZE / nChannels * nChannels :=
        mul_le_mul_of_nonneg_right hn hch.le
    _ ≤ BUFF_SIZE := Int.ediv_mul_le _ hch.ne'
    _ = 4096 := rfl

theorem toInt32_elems (n nChannels : ℤ) (hch : 0 < nChannels) (h0 : 0 ≤ n)
    (hn : n * nChannels ≤ 2147483647) : toInt32 (n * nChannels) = n * nChannels := by
  have h2 : 0 ≤ n * nChannels := mul_nonneg h0 hch.le
  exact toInt32_of_range _ (by linarith) hn

theorem elems_eq_zero_iff (n nChannels : ℤ) (hch : 0 < nChannels) :
    n * nChannels = 0 ↔ n = 0 := by
  constructor
  · intro h
    rcases mul_eq_zero.mp h with h | h
    · exact h
    · exact absurd h hch.ne'
  · intro h
    rw [h, zero_mul]

theorem decodeLoop_length (fl : ℚ → ℚ) (bytes : List ℕ) :
    (decodeLoop fl bytes 2).length = bytes.length / 2 := by
  unfold decodeLoop
  rw [List.length_map, List.length_range,
    Int.tdiv_eq_ediv (Int.natCast_nonneg _) (by norm_num)]
  omega

theorem writeSink_sizes (nChannels : ℤ) (p : Pulled) (hch : 0 < nChannels)
    (h0 : 0 ≤ p.nSamples) (hn : p.nSamples * nChannels ≤ 2147483647) :
    pullsOf (writeSink nChannels p) = [] ∧
    writeSizes (writeSink nChannels p) = [p.nSamples * nChannels] := by
  unfold writeSink
  rw [toInt32_elems _ _ hch h0 hn]
  simp [pullsOf, writeSizes]

theorem drainLoop_write (cap nChannels : ℤ) (engine : List Pulled) (hch : 0 < nChannels)
    (hengine : ∀ p ∈ engine, 0 ≤ p.nSamples ∧ p.nSamples * nChannels ≤ 2147483647) :
    writeSizes (drainLoop cap (writeSink nChannels) engine).1 =
      (pullsOf (drainLoop cap (writeSink nChannels) engine).1).map (fun n => n * nChannels) ∧
    (∀ rest, (drainLoop cap (writeSink nChannels) engine).2 = some rest →
      (∃ front, (drainLoop cap (writeSink nChannels) engine).1 = front ++ [Event.write [] 0]) ∧
      ∀ q ∈ rest, q ∈ engine) := by
  induction engine with
  | nil => simp [drainLoop, writeSizes, pullsOf]
  | cons p rest ih =>
    have hp := hengine p (List.mem_cons_self _ _)
    have hs := writeSink_sizes nChannels p hch hp.1 hp.2
    have ih' := ih (fun q hq => hengine q (List.mem_cons_of_mem _ hq))
    have hpull : ∀ tr, pullsOf (Event.pull cap p.nSamples :: tr) = p.nSamples :: pullsOf tr := by
      intro tr
      simp [pullsOf]
    have hwr : ∀ tr, writeSizes (Event.pull cap p.nSamples :: tr) = writeSizes tr := by
      intro tr
      simp [writeSizes]
    have happ1 : ∀ a b, pullsOf (a ++ b) = pullsOf a ++ pullsOf b := by
      intro a b
      simp [pullsOf]
    have happ2 : ∀ a b, writeSizes (a ++ b) = writeSizes a ++ writeSizes b := by
      intro a b
      simp [writeSizes]
    unfold drainLoop
    by_cases hz : p.nSamples = 0
    · simp only [hz, ne_eq, not_true_eq_false, ite_false]
      rw [hz] at hpull hwr hs
      rw [hpull, hwr, hs.1, hs.2]
      refine ⟨by simp, ?_⟩
      intro r hr
      simp only [Option.some.injEq] at hr
      subst hr
      refine ⟨⟨[Event.pull cap 0], ?_⟩, fun q hq => List.mem_cons_of_mem _ hq⟩
      simp [writeSink, hz, toInt32, wrapSigned]
    · simp only [ne_eq, hz, not_false_eq_true, ite_true]
      rw [hpull, hwr, happ1, happ2, hs.1, hs.2, ih'.1]
      refine ⟨by simp, ?_⟩
      intro r hr
      obtain ⟨⟨front, hfront⟩, hmem⟩ := ih'.2 r hr
      refine ⟨⟨Event.pull cap p.nSamples :: (writeSink nChannels p ++ front), ?_⟩,
        fun q hq => List.mem_cons_of_mem _ (hmem q hq)⟩
      rw [hfront]
      simp

theorem feedLoop_write (nChannels : ℤ) (chunks : List (List ℚ)) (engine : List Pulled)
    (hch : 0 < nChannels)
    (hengine : ∀ p ∈ engine, 0 ≤ p.nSamples ∧ p.nSamples * nChannels ≤ 2147483647) :
    writeSizes (feedLoop nChannels chunks engine).1 =
      (pullsOf (feedLoop nChannels chunks engine).1).map (fun n => n * nChannels) ∧
    (∀ rest, (feedLoop nChannels chunks engine).2 = some rest → ∀ q ∈ rest, q ∈ engine) := by
  induction chunks generalizing engine with
  | nil =>
    refine ⟨by simp [feedLoop, writeSizes, pullsOf], ?_⟩
    intro rest hr
    simp only [feedLoop, Option.some.injEq] at hr
    subst hr
    exact fun q hq => hq
  | cons chunk more ih =>
    have hd := drainLoop_write (Int.tdiv BUFF_SIZE nChannels) nChannels engine hch hengine
    have hput1 : ∀ (c : List ℚ) (d : ℤ) (tr : List Event),
        pullsOf (Event.putSamples c d :: tr) = pullsOf tr := by
      intro c d tr; simp [pullsOf]
    have hput2 : ∀ (c : List ℚ) (d : ℤ) (tr : List Event),
        writeSizes (Event.putSamples c d :: tr) = writeSizes tr := by
      intro c d tr; simp [writeSizes]
    have happ1 : ∀ a b, pullsOf (a ++ b) = pullsOf a ++ pullsOf b := by
      intro a b
      simp [pullsOf]
    have happ2 : ∀ a b, writeSizes (a ++ b) = writeSizes a ++ writeSizes b := by
      intro a b
      simp [writeSizes]
    unfold feedLoop
    cases hrest : (drainLoop (Int.tdiv BUFF_SIZE nChannels) (writeSink nChannels) engine).2 with
    | none =>
      simp only [hput1, hput2]
      exact ⟨hd.1, fun rest hr => by simp at hr⟩
    | some r =>
      have hsub := (hd.2 r hrest).2
      have ih' := ih r (fun q hq => hengine q (hsub q hq))
      simp only [hput1, hput2, happ1, happ2, hd.1, ih'.1, List.map_append]
      exact ⟨trivial, fun rest hr q hq => hsub q (ih'.2 rest hr q hq)⟩

/-- C10, counterexample. For an empty mono input file and an engine with
nothing to return, `_processFile` runs to completion and calls `outFile.write`
with zero elements. -/
theorem processFile_writes_zero_length :
    (_processFile 44100 1 [] [⟨0, []⟩]).2 = some [] ∧
    Event.write [] 0 ∈ (_processFile 44100 1 [] [⟨0, []⟩]).1 := by
  constructor <;> decide

/-- C10, amended. In batch mode, for a channel count above zero and frame
counts returned by the engine whose element counts fit an `int` (as do all
counts up to the requested `BUFF_SIZE / nChannels`), every pull of the
feed/drain loops and of the flush drain is followed by one call of
`outFile.write` carrying `nSamples * nChannels` elements. The calls after
non-empty pulls carry a non-zero number of elements; the call after the
zero-frame pull that ends a drain carries zero elements, so a run that
completes ends with a zero-length write. -/
theorem processFile_write_per_pull (sampleRate nChannels : ℤ) (chunks : List (List ℚ))
    (engine : List Pulled) (hch : 0 < nChannels)
    (hengine : ∀ p ∈ engine, 0 ≤ p.nSamples ∧ p.nSamples * nChannels ≤ 2147483647) :
    writeSizes (_processFile sampleRate nChannels chunks engine).1 =
      (pullsOf (_processFile sampleRate nChannels chunks engine).1).map
        (fun n => n * nChannels) ∧
    (∀ n : ℤ, n * nChannels = 0 ↔ n = 0) ∧
    (∀ rest, (_processFile sampleRate nChannels chunks engine).2 = some rest →
      ∃ front, (_processFile sampleRate nChannels chunks engine).1 =
        front ++ [Event.write [] 0]) := by
  have hf := feedLoop_write nChannels chunks engine hch hengine
  have hhead1 : ∀ (a b : ℤ) (tr : List Event),
      pullsOf (Event.setSampleRate a :: Event.setChannels b :: tr) = pullsOf tr := by
    intro a b tr; simp [pullsOf]
  have hhead2 : ∀ (a b : ℤ) (tr : List Event),
      writeSizes (Event.setSampleRate a :: Event.setChannels b :: tr) = writeSizes tr := by
    intro a b tr; simp [writeSizes]
  have hflush1 : ∀ (tr : List Event), pullsOf (Event.flush :: tr) = pullsOf tr := by
    intro tr; simp [pullsOf]
  have hflush2 : ∀ (tr : List Event), writeSizes (Event.flush :: tr) = writeSizes tr := by
    intro tr; simp [writeSizes]
  have happ1 : ∀ a b, pullsOf (a ++ b) = pullsOf a ++ pullsOf b := by
    intro a b
    simp [pullsOf]
  have happ2 : ∀ a b, writeSizes (a ++ b) = writeSizes a ++ writeSizes b := by
    intro a b
    simp [writeSizes]
  refine ⟨?_, fun n => elems_eq_zero_iff n nChannels hch, ?_⟩
  · unfold _processFile
    cases hrest : (feedLoop nChannels chunks engine).2 with
    | none =>
      simp only [hhead1, hhead2]
      exact hf.1
    | some r =>
      have hd := drainLoop_write (Int.tdiv BUFF_SIZE nChannels) nChannels r hch
        (fun q hq => hengine q (hf.2 r hrest q hq))
      simp only [hhead1, hhead2, happ1, happ2, hflush1, hflush2, hf.1, hd.1, List.map_append]
  · intro rest hr
    unfold _processFile at hr ⊢
    cases hrest : (feedLoop nChannels chunks engine).2 with
    | none =>
      rw [hrest] at hr
      simp at hr
    | some r =>
      rw [hrest] at hr
      simp only at hr ⊢
      have hd := drainLoop_write (Int.tdiv BUFF_SIZE nChannels) nChannels r hch
        (fun q hq => hengine q (hf.2 r hrest q hq))
      obtain ⟨⟨front, hfront⟩, _⟩ := hd.2 rest hr
      refine ⟨Event.setSampleRate sampleRate :: Event.setChannels nChannels ::
        ((feedLoop nChannels chunks engine).1 ++ Event.flush :: front), ?_⟩
      rw [hfront]
      simp

/-- Witness of the amended C10: a stereo file of one chunk, the engine returning
two frames, none, one frame, none. -/
theorem processFile_write_per_pull_witness :
    writeSizes (_processFile 44100 2 [[1, 2, 3, 4]]
      [⟨2, [1 / 2, 1 / 3, 1 / 4, 1 / 5]⟩, ⟨0, []⟩, ⟨1, [1, -1]⟩, ⟨0, []⟩]).1 =
      (pullsOf (_processFile 44100 2 [[1, 2, 3, 4]]
        [⟨2, [1 / 2, 1 / 3, 1 / 4, 1 / 5]⟩, ⟨0, []⟩, ⟨1, [1, -1]⟩, ⟨0, []⟩]).1).map
        (fun n => n * 2) := by
  have hengine : ∀ p ∈ ([⟨2, [1 / 2, 1 / 3, 1 / 4, 1 / 5]⟩, ⟨0, []⟩, ⟨1, [1, -1]⟩, ⟨0, []⟩] :
      List Pulled), 0 ≤ p.nSamples ∧ p.nSamples * 2 ≤ 2147483647 := by
    intro p hp
    simp only [List.mem_cons, List.mem_singleton, List.not_mem_nil, or_false] at hp
    rcases hp with rfl | rfl | rfl | rfl <;> decide
  exact (processFile_write_per_pull 44100 2 [[1, 2, 3, 4]]
    [⟨2, [1 / 2, 1 / 3, 1 / 4, 1 / 5]⟩, ⟨0, []⟩, ⟨1, [1, -1]⟩, ⟨0, []⟩] (by decide) hengine).1

/-! ## Frame capacity and scratch buffer -/

/-- C18. For every channel count `n` with `1 ≤ n ≤ 4096` the frame capacity
`buffSizeSamples = BUFF_SIZE / n` is at least 1 and
`4096 - n < buffSizeSamples * n ≤ 4096`, so a pull of at most `buffSizeSamples`
frames yields at most 4096 elements; for `n > 4096` the capacity is 0. -/
theorem buffSizeSamples_bounds :
    (∀ n : ℤ, 1 ≤ n → n ≤ 4096 →
      1 ≤ Int.tdiv BUFF_SIZE n ∧ 4096 - n < Int.tdiv BUFF_SIZE n * n ∧
      Int.tdiv BUFF_SIZE n * n ≤ 4096 ∧
      ∀ m : ℤ, 0 ≤ m → m ≤ Int.tdiv BUFF_SIZE n → m * n ≤ 4096) ∧
    (∀ n : ℤ, 4096 < n → Int.tdiv BUFF_SIZE n = 0) := by
  constructor
  · intro n h1 h2
    have hpos : 0 < n := by omega
    have hdiv : Int.tdiv BUFF_SIZE n = 4096 / n := Int.tdiv_eq_ediv (by decide) hpos.le
    have hsplit : 4096 % n + n * (4096 / n) = 4096 := Int.emod_add_ediv 4096 n
    have hrem1 : 0 ≤ 4096 % n := Int.emod_nonneg _ hpos.ne'
    have hrem2 : 4096 % n < n := Int.emod_lt_of_pos _ hpos
    have hq : 1 ≤ 4096 / n := by
      rw [Int.le_ediv_iff_mul_le hpos]
      omega
    rw [hdiv]
    refine ⟨hq, by nlinarith, by nlinarith, ?_⟩
    intro m _ hm
    have : m * n ≤ 4096 / n * n := mul_le_mul_of_nonneg_right hm hpos.le
    nlinarith
  · intro n hn
    have hdiv : Int.tdiv BUFF_SIZE n = 4096 / n := Int.tdiv_eq_ediv (by decide) (by omega)
    rw [hdiv]
    exact Int.ediv_eq_zero_of_lt (by norm_num) hn

/-- Witness of C18 at 3 channels: capacity 1365, 4095 elements. -/
theorem buffSizeSamples_bounds_witness :
    (1 : ℤ) ≤ 3 ∧ (3 : ℤ) ≤ 4096 ∧ 1 ≤ Int.tdiv BUFF_SIZE 3 ∧
    4096 - 3 < Int.tdiv BUFF_SIZE 3 * 3 ∧ Int.tdiv BUFF_SIZE 3 * 3 ≤ 4096 ∧
    Int.tdiv BUFF_SIZE 5000 = 0 :=
  ⟨by decide, by decide, (buffSizeSamples_bounds.1 3 (by decide) (by decide)).1,
    (buffSizeSamples_bounds.1 3 (by decide) (by decide)).2.1,
    (buffSizeSamples_bounds.1 3 (by decide) (by decide)).2.2.1,
    buffSizeSamples_bounds.2 5000 (by decide)⟩

/-- C20. The decode loop of `processFrame` writes `buffer[i]` for every
`i < numBytes / 2` and for no other index, whatever the size of the chunk; all
written indices are below `BUFF_SIZE = 4096` if and only if the chunk has at most
8193 bytes. -/
theorem decode_within_scratch_iff (fl : ℚ → ℚ) (bytes : List ℕ) :
    (decodeLoop fl bytes 2).length = bytes.length / 2 ∧
    ((∀ i : ℕ, i < (decodeLoop fl bytes 2).length → (i : ℤ) < BUFF_SIZE) ↔
      bytes.length ≤ 8193) := by
  refine ⟨decodeLoop_length fl bytes, ?_⟩
  rw [decodeLoop_length]
  unfold BUFF_SIZE
  constructor
  · intro h
    by_contra hlen
    have := h 4096 (by omega)
    omega
  · intro h i hi
    omega

/-- Witness of C20: a chunk of 8194 bytes writes index 4096. -/
theorem decode_within_scratch_iff_witness :
    ¬ ∀ i : ℕ, i < (decodeLoop toFloat32 (List.replicate 8194 0) 2).length →
      (i : ℤ) < BUFF_SIZE := by
  intro h
  have := (decode_within_scratch_iff toFloat32 (List.replicate 8194 0)).2.mp h
  rw [List.length_replicate] at this
  omega

/-! ## Thread-local bridge: no tear-down -/

theorem runInitThreading_nil (openmp : Bool) (s : JniState) :
    runInitThreading openmp [] s = s := rfl

theorem runInitThreading_step (openmp : Bool) (c : ℕ × Bool) (calls : List (ℕ × Bool))
    (s : JniState) :
    runInitThreading openmp (c :: calls) s =
      runInitThreading openmp calls (_init_threading openmp c.1 c.2 s).2 := rfl

theorem init_threading_keeps (openmp : Bool) (thread : ℕ) (warn : Bool) (s : JniState) :
    (s.p_gomp_tls ≠ 0 → (_init_threading openmp thread warn s).2.p_gomp_tls ≠ 0) ∧
    (∀ t, s.gomp_tls t ≠ 0 →
      (_init_threading openmp thread warn s).2.gomp_tls t = s.gomp_tls t) := by
  cases openmp with
  | false => exact ⟨fun h => h, fun _ _ => rfl⟩
  | true =>
    constructor
    · intro h
      rw [initThreading_cache_eq]
      split_ifs with h0
      · exact h
      · exact h0
    · intro t ht
      rw [initThreading_tls_eq]
      split_ifs with h0
      · have hne : t ≠ thread := fun he => ht (he ▸ h0)
        rw [Function.update_noteq hne]
      · rfl

/-- C15. The cached thread-local value is never torn down: over every sequence
of `_init_threading` calls, from any contexts with any `warn` flags, a non-empty
process-wide cache stays non-empty and a context's non-empty thread-local
resource keeps its value (it is never replaced by an empty one). -/
theorem init_threading_never_tears_down (openmp : Bool) (calls : List (ℕ × Bool))
    (s : JniState) :
    (s.p_gomp_tls ≠ 0 → (runInitThreading openmp calls s).p_gomp_tls ≠ 0) ∧
    (∀ t, s.gomp_tls t ≠ 0 → (runInitThreading openmp calls s).gomp_tls t = s.gomp_tls t ∧
      (runInitThreading openmp calls s).gomp_tls t ≠ 0) := by
  induction calls generalizing s with
  | nil => exact ⟨fun h => h, fun _ h => ⟨rfl, h⟩⟩
  | cons c cs ih =>
    rw [runInitThreading_step]
    have hk := init_threading_keeps openmp c.1 c.2 s
    have ih' := ih (_init_threading openmp c.1 c.2 s).2
    constructor
    · intro h
      exact ih'.1 (hk.1 h)
    · intro t ht
      have h1 := hk.2 t ht
      have h2 := ih'.2 t (by rw [h1]; exact ht)
      exact ⟨by rw [h2.1, h1], h2.2⟩

/-- Witness of C15: with 1 cached and every context holding 2, three calls leave
the cache non-empty and thread 7 with its value. -/
theorem init_threading_never_tears_down_witness :
    (runInitThreading true [(0, true), (3, false), (7, true)] cachedOther).p_gomp_tls ≠ 0 ∧
    (runInitThreading true [(0, true), (3, false), (7, true)] cachedOther).gomp_tls 7 ≠ 0 :=
  ⟨(init_threading_never_tears_down true [(0, true), (3, false), (7, true)] cachedOther).1
      (by decide),
    ((init_threading_never_tears_down true [(0, true), (3, false), (7, true)] cachedOther).2 7
      (by decide)).2⟩

/-! ## Codec on raw values -/

theorem exactOn24_id : ExactOn24 id := fun _ _ _ _ => rfl

theorem exactOn24_toFloat32 : ExactOn24 toFloat32 := toFloat32_of_mantissa

theorem ExactOn24.intCast {fl : ℚ → ℚ} (hfl : ExactOn24 fl) (m : ℤ) (hm : |m| < 2 ^ 24) :
    fl (m : ℚ) = m := by
  have := hfl m 0 hm (by norm_num)
  simpa using this

theorem signExtend24_range (raw : ℤ) :
    -8388608 ≤ signExtend24 raw ∧ signExtend24 raw ≤ 8388607 := by
  rw [signExtend24_eq]
  unfold wrapSigned
  norm_num
  omega

theorem signExtend24_load (b0 b1 b2 b3 : ℕ) (h0 : b0 < 256) (h1 : b1 < 256) (h2 : b2 < 256) :
    signExtend24 (ofBits32 (load32 b0 b1 b2 b3)) =
      if b0 + 256 * b1 + 65536 * b2 < 8388608 then ((b0 + 256 * b1 + 65536 * b2 : ℕ) : ℤ)
      else ((b0 + 256 * b1 + 65536 * b2 : ℕ) : ℤ) - 16777216 := by
  rw [signExtend24_eq]
  unfold ofBits32 load32 wrapSigned
  norm_num
  split_ifs <;> omega

theorem decode24_exact {fl : ℚ → ℚ} (hfl : ExactOn24 fl) (raw : ℤ) :
    decode24 fl raw = (signExtend24 raw : ℚ) / 8388608 := by
  have hr := signExtend24_range raw
  have := hfl (signExtend24 raw) (-23) (by rw [abs_lt]; constructor <;> omega) (by norm_num)
  unfold decode24
  have hform : (signExtend24 raw : ℚ) * (1 / 8388608) = (signExtend24 raw : ℚ) * 2 ^ (-23 : ℤ) := by
    norm_num
  rw [hform, this]
  norm_num
  ring

theorem decode16_exact {fl : ℚ → ℚ} (hfl : ExactOn24 fl) (v : ℤ) (h1 : -32768 ≤ v)
    (h2 : v ≤ 32767) : decode16 fl v = (v : ℚ) / 32768 := by
  have := hfl v (-15) (by rw [abs_lt]; constructor <;> omega) (by norm_num)
  unfold decode16
  have hform : (v : ℚ) * (1 / 32768) = (v : ℚ) * 2 ^ (-15 : ℤ) := by norm_num
  rw [hform, this]
  norm_num
  ring

theorem decode8_exact {fl : ℚ → ℚ} (hfl : ExactOn24 fl) (v : ℤ) (h1 : 0 ≤ v) (h2 : v ≤ 255) :
    decode8 fl v = ((v : ℚ) - 128) / 128 := by
  have := hfl (v - 128) (-7) (by rw [abs_lt]; constructor <;> omega) (by norm_num)
  unfold decode8
  have hform : (v : ℚ) * (1 / 128) - 1 = ((v - 128 : ℤ) : ℚ) * 2 ^ (-7 : ℤ) := by
    push_cast
    norm_num
    ring
  rw [hform, this]
  push_cast
  norm_num
  ring

theorem saturate_intCast (v lo hi : ℤ) (h1 : lo ≤ v) (h2 : v ≤ hi) :
    saturate (v : ℚ) lo hi = v := by
  have h1' : (lo : ℚ) ≤ v := by exact_mod_cast h1
  have h2' : (v : ℚ) ≤ hi := by exact_mod_cast h2
  unfold saturate
  rw [if_neg (not_lt.mpr h2'), if_neg (not_lt.mpr h1')]
  exact truncToInt_intCast v

/-- C16. The 24-bit decode sign-extends from bit 23 and ignores the neighbouring
byte: for packed bytes `b0 b1 b2` (low to high) and any 4th byte read by the
32-bit load, the sample is `u / 8388608` when `u = b0 + 256 b1 + 65536 b2` is
below 8388608 and `(u - 16777216) / 8388608` otherwise; it lies in `[-1, 1)` and
is the same for every 4th byte. Binary32 rounding changes none of these values. -/
theorem decode24_sign_extends (b0 b1 b2 b3 : ℕ) (h0 : b0 < 256) (h1 : b1 < 256)
    (h2 : b2 < 256) :
    decode24 toFloat32 (ofBits32 (load32 b0 b1 b2 b3)) =
      (if b0 + 256 * b1 + 65536 * b2 < 8388608
        then ((b0 + 256 * b1 + 65536 * b2 : ℕ) : ℚ) / 8388608
        else (((b0 + 256 * b1 + 65536 * b2 : ℕ) : ℚ) - 16777216) / 8388608) ∧
    -1 ≤ decode24 toFloat32 (ofBits32 (load32 b0 b1 b2 b3)) ∧
    decode24 toFloat32 (ofBits32 (load32 b0 b1 b2 b3)) < 1 ∧
    (∀ b3' : ℕ, decode24 toFloat32 (ofBits32 (load32 b0 b1 b2 b3')) =
      decode24 toFloat32 (ofBits32 (load32 b0 b1 b2 b3))) ∧
    decode24 id (ofBits32 (load32 b0 b1 b2 b3)) =
      decode24 toFloat32 (ofBits32 (load32 b0 b1 b2 b3)) := by
  have hr := signExtend24_range (ofBits32 (load32 b0 b1 b2 b3))
  have hr1 : (-8388608 : ℚ) ≤ signExtend24 (ofBits32 (load32 b0 b1 b2 b3)) := by
    exact_mod_cast hr.1
  have hr2 : (signExtend24 (ofBits32 (load32 b0 b1 b2 b3)) : ℚ) ≤ 8388607 := by
    exact_mod_cast hr.2
  refine ⟨?_, ?_, ?_, ?_, ?_⟩
  · rw [decode24_exact exactOn24_toFloat32, signExtend24_load b0 b1 b2 b3 h0 h1 h2]
    split_ifs <;> push_cast <;> rfl
  · rw [decode24_exact exactOn24_toFloat32, le_div_iff₀ (by norm_num)]
    linarith
  · rw [decode24_exact exactOn24_toFloat32, div_lt_iff₀ (by norm_num)]
    linarith
  · intro b3'
    rw [decode24_exact exactOn24_toFloat32, decode24_exact exactOn24_toFloat32,
      signExtend24_load b0 b1 b2 b3' h0 h1 h2, signExtend24_load b0 b1 b2 b3 h0 h1 h2]
  · rw [decode24_exact exactOn24_toFloat32, decode24_exact exactOn24_id]

/-- Witness of C16 at the bytes `00 00 80` (the most negative sample) followed
by `7f`. -/
theorem decode24_sign_extends_witness :
    decode24 toFloat32 (ofBits32 (load32 0 0 128 127)) = -1 := by
  have h := (decode24_sign_extends 0 0 128 127 (by decide) (by decide) (by decide)).1
  rw [h]
  norm_num

theorem encode_decode_of_exact {fl : ℚ → ℚ} (hfl : ExactOn24 fl) :
    (∀ v : ℤ, 0 ≤ v → v ≤ 255 → encode8 fl (decode8 fl v) = v) ∧
    (∀ v : ℤ, -32768 ≤ v → v ≤ 32767 → encode16 fl (decode16 fl v) = v) ∧
    (∀ raw : ℤ, encode24 fl (decode24 fl raw) = signExtend24 raw) := by
  refine ⟨?_, ?_, ?_⟩
  · intro v h1 h2
    rw [decode8_exact hfl v h1 h2]
    unfold encode8
    have e1 : ((v : ℚ) - 128) / 128 * 128 = ((v - 128 : ℤ) : ℚ) := by
      push_cast
      ring
    have e2 : ((v - 128 : ℤ) : ℚ) + 128 = (v : ℚ) := by
      push_cast
      ring
    rw [e1, hfl.intCast _ (by rw [abs_lt]; constructor <;> omega), e2,
      hfl.intCast _ (by rw [abs_lt]; constructor <;> omega)]
    have := saturate_intCast v 0 255 h1 h2
    simp only [Int.cast_zero, Int.cast_ofNat] at this
    rw [this]
    exact toUChar_of_range v h1 h2
  · intro v h1 h2
    rw [decode16_exact hfl v h1 h2]
    unfold encode16
    have e1 : (v : ℚ) / 32768 * 32768 = (v : ℚ) := by ring
    rw [e1, hfl.intCast _ (by rw [abs_lt]; constructor <;> omega)]
    have := saturate_intCast v (-32768) 32767 h1 h2
    simp only [Int.cast_neg, Int.cast_ofNat] at this
    rw [this]
    exact toShort_of_range v h1 h2
  · intro raw
    have hr := signExtend24_range raw
    rw [decode24_exact hfl raw]
    unfold encode24
    have e1 : (signExtend24 raw : ℚ) / 8388608 * 8388608 = (signExtend24 raw : ℚ) := by ring
    rw [e1, hfl.intCast _ (by rw [abs_lt]; constructor <;> omega)]
    have := saturate_intCast (signExtend24 raw) (-8388608) 8388607 hr.1 hr.2
    simp only [Int.cast_neg, Int.cast_ofNat] at this
    exact this

theorem bytes_of_signExtend24_load (b0 b1 b2 b3 : ℕ) (h0 : b0 < 256) (h1 : b1 < 256)
    (h2 : b2 < 256) :
    byteAt (bits32 (signExtend24 (ofBits32 (load32 b0 b1 b2 b3)))) 0 = b0 ∧
    byteAt (bits32 (signExtend24 (ofBits32 (load32 b0 b1 b2 b3)))) 1 = b1 ∧
    byteAt (bits32 (signExtend24 (ofBits32 (load32 b0 b1 b2 b3)))) 2 = b2 := by
  rw [signExtend24_load b0 b1 b2 b3 h0 h1 h2]
  unfold byteAt bits32
  norm_num
  split_ifs <;> omega

/-- C19. Encoding is an exact left inverse of decoding on raw values, in
binary32 arithmetic and in exact arithmetic: an 8-bit `v` in `0..255` and a
16-bit `v` in `-32768..32767` are encoded back to `v`; a 24-bit `v` in
`-8388608..8388607`, read with any 4th byte, is encoded back to `v`, and the
three bytes the encoder packs are the three bytes that were read. -/
theorem encode_decode_raw :
    (∀ v : ℤ, 0 ≤ v → v ≤ 255 → encode8 toFloat32 (decode8 toFloat32 v) = v) ∧
    (∀ v : ℤ, -32768 ≤ v → v ≤ 32767 → encode16 toFloat32 (decode16 toFloat32 v) = v) ∧
    (∀ (v : ℤ) (b3 : ℕ), -8388608 ≤ v → v ≤ 8388607 →
      encode24 toFloat32 (decode24 toFloat32 (packed24 v b3)) = v) ∧
    (∀ b0 b1 b2 b3 : ℕ, b0 < 256 → b1 < 256 → b2 < 256 →
      byteAt (bits32 (encode24 toFloat32
        (decode24 toFloat32 (ofBits32 (load32 b0 b1 b2 b3))))) 0 = b0 ∧
      byteAt (bits32 (encode24 toFloat32
        (decode24 toFloat32 (ofBits32 (load32 b0 b1 b2 b3))))) 1 = b1 ∧
      byteAt (bits32 (encode24 toFloat32
        (decode24 toFloat32 (ofBits32 (load32 b0 b1 b2 b3))))) 2 = b2) ∧
    (∀ v : ℤ, 0 ≤ v → v ≤ 255 → encode8 id (decode8 id v) = v) ∧
    (∀ v : ℤ, -32768 ≤ v → v ≤ 32767 → encode16 id (decode16 id v) = v) ∧
    (∀ (v : ℤ) (b3 : ℕ), -8388608 ≤ v → v ≤ 8388607 →
      encode24 id (decode24 id (packed24 v b3)) = v) := by
  have hF := encode_decode_of_exact exactOn24_toFloat32
  have hI := encode_decode_of_exact exactOn24_id
  refine ⟨hF.1, hF.2.1, ?_, ?_, hI.1, hI.2.1, ?_⟩
  · intro v b3 h1 h2
    rw [hF.2.2, signExtend24_packed24]
    exact wrapSigned_of_range 24 (by norm_num) v (by norm_num; exact h1) (by norm_num; omega)
  · intro b0 b1 b2 b3 h0 h1 h2
    rw [hF.2.2]
    exact bytes_of_signExtend24_load b0 b1 b2 b3 h0 h1 h2
  · intro v b3 h1 h2
    rw [hI.2.2, signExtend24_packed24]
    exact wrapSigned_of_range 24 (by norm_num) v (by norm_num; exact h1) (by norm_num; omega)

/-- Witness of C19 at the raw values 200, -12345 and -8388608. -/
theorem encode_decode_raw_witness :
    encode8 toFloat32 (decode8 toFloat32 200) = 200 ∧
    encode16 toFloat32 (decode16 toFloat32 (-12345)) = -12345 ∧
    encode24 toFloat32 (decode24 toFloat32 (packed24 (-8388608) 255)) = -8388608 :=
  ⟨encode_decode_raw.1 200 (by norm_num) (by norm_num),
    encode_decode_raw.2.1 (-12345) (by norm_num) (by norm_num),
    encode_decode_raw.2.2.1 (-8388608) 255 (by norm_num) (by norm_num)⟩

/-! ## Allocation and packing in the encoder -/

theorem land_mask8 (x : ℕ) (hx : x < 2 ^ 32) : x &&& 4294967288 = x - x % 8 := by
  have hm : (4294967288 : ℕ) = 2 ^ 3 * (2 ^ 29 - 1) := by norm_num
  have hx8 : x - x % 8 = 2 ^ 3 * (x >>> 3) := by
    rw [Nat.shiftRight_eq_div_pow]
    omega
  rw [hm, hx8]
  apply Nat.eq_of_testBit_eq
  intro i
  rw [Nat.testBit_and, Nat.testBit_mul_pow_two, Nat.testBit_mul_pow_two,
    Nat.testBit_two_pow_sub_one, Nat.testBit_shiftRight]
  by_cases h3 : 3 ≤ i
  · rw [show 3 + (i - 3) = i by omega]
    by_cases h32 : i - 3 < 29
    · simp [h3, h32]
    · have : x.testBit i = false :=
        Nat.testBit_lt_two_pow (lt_of_lt_of_le hx (Nat.pow_le_pow_right (by norm_num) (by omega)))
      simp [h3, h32, this]
  · simp [h3]

theorem allocSize_eq (n : ℤ) (h0 : 0 ≤ n) (hfit : n + 24 ≤ 2147483647) :
    allocSize n = n + 24 - (n + 24) % 8 := by
  unfold allocSize and32
  rw [toInt32_of_range _ (by omega) hfit]
  have hb : bits32 (-8) = 4294967288 := by decide
  have hx : bits32 (n + 24) = (n + 24).toNat := by
    unfold bits32
    rw [Int.emod_eq_of_lt (by omega) (by omega)]
  have hlt : (n + 24).toNat < 2 ^ 32 := by omega
  rw [hb, hx, land_mask8 _ hlt]
  unfold ofBits32 wrapSigned
  norm_num
  omega

theorem store_nil (mem : ℕ → ℕ) (off : ℕ) : store mem off [] = mem := by
  funext a
  unfold store
  simp

theorem leBytes_length (p k : ℕ) : (leBytes p k).length = k := by
  unfold leBytes
  simp

theorem encodeLoop_eq_stores (fl : ℚ → ℚ) (buffer : ℕ → ℚ) (numElems bytesPerSample : ℤ) :
    encodeLoop fl buffer numElems bytesPerSample =
      (encodeStores fl buffer numElems bytesPerSample).foldl
        (fun temp st => store temp st.1 st.2) (fun _ => 0) := by
  unfold encodeLoop encodeStores
  rw [List.foldl_map]
  congr 1
  funext temp i
  split_ifs <;> first | rfl | exact (store_nil temp 0).symm

/-- C13, counterexample. For 2147483647 one-byte samples `numBytes` fits an
`int`, yet `numBytes + 24` wraps and the size `(numBytes + 24) & -8` is
negative, not `numBytes + 17` or more. -/
theorem allocSize_wraps :
    toInt32 (2147483647 * 1) = 2147483647 ∧ allocSize (toInt32 (2147483647 * 1)) = -2147483632 ∧
    ¬ (2147483647 * 1 + 17 ≤ allocSize (toInt32 (2147483647 * 1))) := by
  decide

/-- C13, amended. For every `numElems ≥ 1` and width `w` of 1, 2, 3 or 4 bytes
such that `numBytes + 24` fits a 32-bit `int` (`numBytes = numElems * w`), the
allocated size `(numBytes + 24) & -8` is a multiple of 8 and at least
`numBytes + 17`, and every store of the encoder loop, the 4-byte stores at
offset `3 * i` of the 24-bit case included, ends inside the allocation. -/
theorem allocSize_covers_stores (fl : ℚ → ℚ) (buffer : ℕ → ℚ) (numElems w : ℤ)
    (h1 : 1 ≤ numElems) (hw : w = 1 ∨ w = 2 ∨ w = 3 ∨ w = 4)
    (hfit : numElems * w + 24 ≤ 2147483647) :
    allocSize (toInt32 (numElems * w)) % 8 = 0 ∧
    numElems * w + 17 ≤ allocSize (toInt32 (numElems * w)) ∧
    (∀ st ∈ encodeStores fl buffer numElems w,
      ((st.1 + st.2.length : ℕ) : ℤ) ≤ allocSize (toInt32 (numElems * w))) ∧
    encodeLoop fl buffer numElems w =
      (encodeStores fl buffer numElems w).foldl (fun temp st => store temp st.1 st.2)
        (fun _ => 0) := by
  have hnb : 0 ≤ numElems * w := by rcases hw with h | h | h | h <;> subst h <;> omega
  have hto : toInt32 (numElems * w) = numElems * w := toInt32_of_range _ (by omega) (by omega)
  have ha := allocSize_eq (numElems * w) hnb hfit
  rw [hto, ha]
  refine ⟨by omega, by omega, ?_, encodeLoop_eq_stores fl buffer numElems w⟩
  intro st hst
  unfold encodeStores at hst
  rw [List.mem_map] at hst
  obtain ⟨i, hi, rfl⟩ := hst
  rw [List.mem_range] at hi
  rcases hw with h | h | h | h <;> subst h <;> norm_num [leBytes_length] <;> omega

/-- Witness of the amended C13: 4096 samples of 3 bytes get 12312 bytes, and the
last store ends at byte 12289. -/
theorem allocSize_covers_stores_witness :
    allocSize (toInt32 (4096 * 3)) % 8 = 0 ∧ (4096 : ℤ) * 3 + 17 ≤ allocSize (toInt32 (4096 * 3)) :=
  ⟨(allocSize_covers_stores id (fun _ => 0) 4096 3 (by decide) (by decide) (by decide)).1,
    (allocSize_covers_stores id (fun _ => 0) 4096 3 (by decide) (by decide) (by decide)).2.1⟩

theorem leBytes_getD (p k j : ℕ) (hj : j < k) : (leBytes p k).getD j 0 = byteAt p j := by
  unfold leBytes
  rw [List.getD_eq_getElem _ _ (by simpa using hj)]
  simp

theorem packLoop_bytes (p : ℕ → ℕ) (init : ℕ → ℕ) (n : ℕ) :
    ∀ i, i < n → ∀ k, k < 3 →
      (List.range n).foldl (fun temp j => store temp (3 * j) (leBytes (p j) 4)) init (3 * i + k)
        = byteAt (p i) k := by
  induction n with
  | zero => intro i hi; omega
  | succ n ih =>
    intro i hi k hk
    rw [List.range_succ, List.foldl_append]
    simp only [List.foldl_cons, List.foldl_nil]
    unfold store
    rw [leBytes_length]
    by_cases hin : i = n
    · subst hin
      rw [if_pos (by omega), show 3 * i + k - 3 * i = k by omega, leBytes_getD _ _ _ (by omega)]
    · rw [if_neg (by omega)]
      exact ih i (by omega) k hk

/-- C14. The 24-bit loop of `receiveSamples` packs correctly despite its
overlapping 4-byte stores: for every buffer of samples and every `i < numElems`
the bytes of `temp` at offsets `3i`, `3i + 1`, `3i + 2` are the low, middle and
high byte of the low 24 bits of the saturated value of sample `i`, although the
store of iteration `i` covers the four bytes from offset `3i`. -/
theorem encode24_packs (fl : ℚ → ℚ) (buffer : ℕ → ℚ) (numElems : ℤ) (i : ℕ)
    (hi : (i : ℤ) < numElems) :
    encodeLoop fl buffer numElems 3 (3 * i) =
      (encode24 fl (buffer i) % 16777216).toNat % 256 ∧
    encodeLoop fl buffer numElems 3 (3 * i + 1) =
      (encode24 fl (buffer i) % 16777216).toNat / 256 % 256 ∧
    encodeLoop fl buffer numElems 3 (3 * i + 2) =
      (encode24 fl (buffer i) % 16777216).toNat / 65536 % 256 ∧
    (3 * i, leBytes (bits32 (encode24 fl (buffer i))) 4) ∈ encodeStores fl buffer numElems 3 ∧
    (leBytes (bits32 (encode24 fl (buffer i))) 4).length = 4 := by
  have hloop : encodeLoop fl buffer numElems 3 =
      (List.range numElems.toNat).foldl
        (fun temp j => store temp (3 * j) (leBytes (bits32 (encode24 fl (buffer j))) 4))
        (fun _ => 0) := by
    unfold encodeLoop
    norm_num
  have hlt : i < numElems.toNat := by omega
  have hb := packLoop_bytes (fun j => bits32 (encode24 fl (buffer j))) (fun _ => 0)
    numElems.toNat i hlt
  have h0 := hb 0 (by norm_num)
  have h1 := hb 1 (by norm_num)
  have h2 := hb 2 (by norm_num)
  rw [← hloop] at h0 h1 h2
  simp only [add_zero] at h0
  refine ⟨?_, ?_, ?_, ?_, leBytes_length _ _⟩
  · rw [h0]
    unfold byteAt bits32
    norm_num
    omega
  · rw [h1]
    unfold byteAt bits32
    norm_num
    omega
  · rw [h2]
    unfold byteAt bits32
    norm_num
    omega
  · unfold encodeStores
    rw [List.mem_map]
    exact ⟨i, List.mem_range.mpr hlt, by norm_num⟩

/-- Witness of C14: two samples, 1/2 and -1; the first is packed as `00 00 40`
although the second store follows at offset 3. -/
theorem encode24_packs_witness :
    encodeLoop id (fun j => if j = 0 then 1 / 2 else -1) 2 3 (3 * 0 + 2) =
      (encode24 id (1 / 2) % 16777216).toNat / 65536 % 256 :=
  (encode24_packs id (fun j => if j = 0 then 1 / 2 else -1) 2 0 (by decide)).2.2.1

/-! ## Failures at the native boundary -/

theorem init_threading_errMsg_of_ok (openmp : Bool) (thread : ℕ) (warn : Bool) (s : JniState)
    (h : (_init_threading openmp thread warn s).1 = 0) :
    (_init_threading openmp thread warn s).2.errMsg = s.errMsg := by
  cases openmp with
  | false => rfl
  | true =>
    rw [initThreading_status_eq] at h
    rw [initThreading_errMsg_eq]
    by_cases hc : warn = true ∧ s.gomp_tls thread = 0 ∧ s.p_gomp_tls = 0
    · rw [if_pos hc] at h
      exact absurd h (by decide)
    · rw [if_neg hc]

theorem processFile_never_escapes (openmp : Bool) (thread : ℕ) (s : JniState)
    (sampleRate nChannels : ℤ) (chunks : List (List ℚ)) (engine : List Pulled)
    (fault : Option Fault) (m : String) :
    (Java_net_surina_soundtouch_SoundTouch_processFile openmp thread s sampleRate nChannels
      chunks engine fault).1 ≠ Outcome.escaped m := by
  unfold Java_net_surina_soundtouch_SoundTouch_processFile
  split_ifs
  · simp
  · split
    · simp
    · split <;> simp

theorem drainLoop_cons_ne (cap : ℤ) (sink : Pulled → List Event) (p : Pulled)
    (rest : List Pulled) (h : p.nSamples ≠ 0) :
    drainLoop cap sink (p :: rest) =
      (Event.pull cap p.nSamples :: (sink p ++ (drainLoop cap sink rest).1),
        (drainLoop cap sink rest).2) := by
  simp [drainLoop, h]

theorem drainLoop_cons_zero (cap : ℤ) (sink : Pulled → List Event) (p : Pulled)
    (rest : List Pulled) (h : p.nSamples = 0) :
    drainLoop cap sink (p :: rest) = (Event.pull cap p.nSamples :: sink p, some rest) := by
  simp [drainLoop, h]

theorem emptyPulls_cons (p : Pulled) (rest : List Pulled) :
    emptyPulls (p :: rest) = emptyPulls rest + (if p.nSamples = 0 then 1 else 0) := by
  unfold emptyPulls
  rw [List.countP_cons]
  by_cases h : p.nSamples = 0 <;> simp [h]

theorem drainLoop_finishes (cap : ℤ) (sink : Pulled → List Event) (engine : List Pulled)
    (h : 0 < emptyPulls engine) :
    ∃ rest, (drainLoop cap sink engine).2 = some rest ∧
      emptyPulls rest + 1 = emptyPulls engine := by
  induction engine with
  | nil => exact absurd h (by decide)
  | cons p rest ih =>
    rw [emptyPulls_cons] at h ⊢
    by_cases hz : p.nSamples = 0
    · rw [drainLoop_cons_zero cap sink p rest hz, if_pos hz]
      exact ⟨rest, rfl, rfl⟩
    · rw [drainLoop_cons_ne cap sink p rest hz, if_neg hz]
      rw [if_neg hz] at h
      exact ih h

theorem feedLoop_finishes (nChannels : ℤ) (chunks : List (List ℚ)) (engine : List Pulled)
    (h : chunks.length ≤ emptyPulls engine) :
    ∃ rest, (feedLoop nChannels chunks engine).2 = some rest ∧
      emptyPulls rest + chunks.length = emptyPulls engine := by
  induction chunks generalizing engine with
  | nil => exact ⟨engine, rfl, rfl⟩
  | cons chunk more ih =>
    rw [List.length_cons] at h ⊢
    obtain ⟨r, hr, hcount⟩ := drainLoop_finishes (Int.tdiv BUFF_SIZE nChannels)
      (writeSink nChannels) engine (by omega)
    obtain ⟨r2, hr2, hcount2⟩ := ih r (by omega)
    refine ⟨r2, ?_, by omega⟩
    unfold feedLoop
    rw [hr]
    exact hr2

theorem processFile_finishes (sampleRate nChannels : ℤ) (chunks : List (List ℚ))
    (engine : List Pulled) (h : chunks.length + 1 ≤ emptyPulls engine) :
    ∃ rest, (_processFile sampleRate nChannels chunks engine).2 = some rest := by
  obtain ⟨r, hr, hcount⟩ := feedLoop_finishes nChannels chunks engine (by omega)
  obtain ⟨r2, hr2, _⟩ := drainLoop_finishes (Int.tdiv BUFF_SIZE nChannels)
    (writeSink nChannels) r (by omega)
  refine ⟨r2, ?_⟩
  unfold _processFile
  rw [hr]
  exact hr2

/-- C11. `processFile` never lets a runtime failure escape, for a file with a
channel count above zero. When the threading check passes and `_processFile`
throws `std::runtime_error(m)`, from whichever call, the entry point returns -1
and the next `getErrorString` returns exactly `m`. When nothing is thrown and the
engine ends each of the drains with an empty pull (one per chunk read and one
after the flush), `_processFile` returns, the entry point returns 0 and the error
slot is as before the call. No run ends with an exception leaving the entry
point. -/
theorem processFile_catches (openmp : Bool) (thread : ℕ) (s : JniState)
    (sampleRate nChannels : ℤ) (chunks : List (List ℚ)) (engine : List Pulled)
    (fault : Option Fault) (hch : 0 < nChannels)
    (hthr : (_init_threading openmp thread true s).1 = 0) :
    (∀ m, thrownIn (_processFile sampleRate nChannels chunks engine).1 fault = some m →
      (Java_net_surina_soundtouch_SoundTouch_processFile openmp thread s sampleRate nChannels
        chunks engine fault).1 = Outcome.returned (-1) ∧
      (Java_net_surina_soundtouch_SoundTouch_getErrorString
        (Java_net_surina_soundtouch_SoundTouch_processFile openmp thread s sampleRate nChannels
          chunks engine fault).2.1).1 = m) ∧
    (thrownIn (_processFile sampleRate nChannels chunks engine).1 fault = none →
      chunks.length + 1 ≤ emptyPulls engine →
      (_processFile sampleRate nChannels chunks engine).2 ≠ none ∧
      (Java_net_surina_soundtouch_SoundTouch_processFile openmp thread s sampleRate nChannels
        chunks engine fault).1 = Outcome.returned 0 ∧
      (Java_net_surina_soundtouch_SoundTouch_processFile openmp thread s sampleRate nChannels
        chunks engine fault).2.1.errMsg = s.errMsg) ∧
    (∀ m, (Java_net_surina_soundtouch_SoundTouch_processFile openmp thread s sampleRate
      nChannels chunks engine fault).1 ≠ Outcome.escaped m) := by
  have _ := hch
  refine ⟨?_, ?_, processFile_never_escapes openmp thread s sampleRate nChannels chunks engine
    fault⟩
  · intro m hm
    unfold Java_net_surina_soundtouch_SoundTouch_processFile
    rw [if_neg (by rw [hthr]; decide), hm]
    exact ⟨rfl, rfl⟩
  · intro hnone henough
    obtain ⟨rest, hrest⟩ := processFile_finishes sampleRate nChannels chunks engine henough
    refine ⟨by rw [hrest]; simp, ?_⟩
    unfold Java_net_surina_soundtouch_SoundTouch_processFile
    rw [if_neg (by rw [hthr]; decide), hnone, hrest]
    exact ⟨rfl, init_threading_errMsg_of_ok openmp thread true s hthr⟩

/-- Witness of C11: the reader fails to open the input file (before event 0),
with an older message still in the slot; and a run without failure. -/
theorem processFile_catches_witness :
    (Java_net_surina_soundtouch_SoundTouch_processFile false 0 oneThread 44100 1 []
      [⟨0, []⟩] none).1 = Outcome.returned 0 ∧
    (Java_net_surina_soundtouch_SoundTouch_processFile true 0
      (_setErrmsg "old" (Java_net_surina_soundtouch_SoundTouch_getVersionString true 0 oneThread))
      44100 2 [] [⟨0, []⟩] (some ⟨0, "Error : Unable to open file for reading."⟩)).1
        = Outcome.returned (-1) ∧
    (Java_net_surina_soundtouch_SoundTouch_getErrorString
      (Java_net_surina_soundtouch_SoundTouch_processFile true 0
        (_setErrmsg "old"
          (Java_net_surina_soundtouch_SoundTouch_getVersionString true 0 oneThread))
        44100 2 [] [⟨0, []⟩] (some ⟨0, "Error : Unable to open file for reading."⟩)).2.1).1
        = "Error : Unable to open file for reading." :=
  ⟨((processFile_catches false 0 oneThread 44100 1 [] [⟨0, []⟩] none (by decide)
      (by decide)).2.1 (by decide) (by decide)).2.1,
    (processFile_catches true 0
      (_setErrmsg "old"
        (Java_net_surina_soundtouch_SoundTouch_getVersionString true 0 oneThread))
      44100 2 [] [⟨0, []⟩] (some ⟨0, "Error : Unable to open file for reading."⟩)
      (by decide) (by decide)).1 "Error : Unable to open file for reading." (by decide)⟩

theorem processFrame_throw_escapes (fl : ℚ → ℚ) (openmp : Bool) (thread : ℕ)
    (s : JniState) (sampleBuffer : Option (List ℕ)) (sampleRate nChannels : ℤ)
    (engine : List Pulled) (fault : Option Fault) (m : String)
    (hthr : (_init_threading openmp thread true s).1 = 0)
    (hm : thrownIn (Java_net_surina_soundtouch_SoundTouch_processFrame fl openmp thread s
      sampleBuffer sampleRate nChannels engine).2.2 fault = some m) :
    (Java_net_surina_soundtouch_SoundTouch_processFrame_throwing fl openmp thread s
      sampleBuffer sampleRate nChannels engine fault).1 = Outcome.escaped m ∧
    (Java_net_surina_soundtouch_SoundTouch_processFrame_throwing fl openmp thread s
      sampleBuffer sampleRate nChannels engine fault).2.1.errMsg = s.errMsg := by
  unfold Java_net_surina_soundtouch_SoundTouch_processFrame_throwing
  rw [if_neg (by rw [hthr]; decide), hm]
  exact ⟨rfl, init_threading_errMsg_of_ok openmp thread true s hthr⟩

/-- C12, the code at the failing input. With 17 channels the engine's
`setChannels` throws; `processFrame` has no handler, so the exception leaves the
entry point instead of a status being returned, the events stop after
`setSampleRate`, and the error slot stays empty. -/
theorem processFrame_lets_failure_escape :
    tooManyChannels.1 = Outcome.escaped "Error: Illegal number of channels" ∧
    tooManyChannels.2.2 = [Event.setSampleRate 44100] ∧
    (Java_net_surina_soundtouch_SoundTouch_getErrorString tooManyChannels.2.1).1 = "" ∧
    ∀ status, tooManyChannels.1 ≠ Outcome.returned status := by
  have h : tooManyChannels.1 = Outcome.escaped "Error: Illegal number of channels" := by decide
  refine ⟨h, by decide, by decide, ?_⟩
  intro status
  rw [h]
  simp

/-! ## Draining an engine with a finite queue -/

theorem ceilDiv_succ (k len : ℕ) (hk : 0 < k) (hlen : 0 < len) :
    (len + k - 1) / k = (len - k + k - 1) / k + 1 := by
  by_cases h : len ≤ k
  · have h1 : (len + k - 1) / k = 1 :=
      Nat.div_eq_of_lt_le (by omega) (by omega)
    have h2 : (len - k + k - 1) / k = 0 := Nat.div_eq_of_lt (by omega)
    rw [h1, h2]
  · have : len + k - 1 = (len - k + k - 1) + k := by omega
    rw [this, Nat.add_div_right _ hk]

theorem ceilDiv_zero (k : ℕ) (hk : 0 < k) : (0 + k - 1) / k = 0 :=
  Nat.div_eq_of_lt (by omega)

theorem ceilDiv_mul_ge (k len : ℕ) (hk : 0 < k) : len ≤ (len + k - 1) / k * k := by
  have h1 := Nat.div_add_mod (len + k - 1) k
  have h2 := Nat.mod_lt (len + k - 1) hk
  have h3 : (len + k - 1) / k * k = k * ((len + k - 1) / k) := Nat.mul_comm _ _
  omega

theorem ceilDiv_mul_lt (k len : ℕ) (hk : 0 < k) : (len + k - 1) / k * k < len + k := by
  have h1 := Nat.div_mul_le_self (len + k - 1) k
  omega

theorem ceilDiv_eq_ceil (k len : ℕ) (hk : 0 < k) :
    (len + k - 1) / k = ⌈(len : ℚ) / k⌉₊ := by
  have hkq : (0 : ℚ) < k := by exact_mod_cast hk
  have hge := ceilDiv_mul_ge k len hk
  have hlt := ceilDiv_mul_lt k len hk
  apply le_antisymm
  · by_contra hcon
    push_neg at hcon
    have h1 : ((⌈(len : ℚ) / k⌉₊ : ℕ) : ℚ) * k ≥ len := by
      have := Nat.le_ceil ((len : ℚ) / k)
      rw [div_le_iff₀ hkq] at this
      exact this
    have h2 : ⌈(len : ℚ) / k⌉₊ * k ≥ len := by exact_mod_cast h1
    have h3 : (⌈(len : ℚ) / k⌉₊ + 1) * k ≤ (len + k - 1) / k * k :=
      Nat.mul_le_mul_right k hcon
    rw [Nat.add_mul] at h3
    omega
  · rw [Nat.ceil_le, div_le_iff₀ hkq]
    exact_mod_cast hge

theorem engineAnswers_length (k n : ℕ) (ready : List (List ℚ)) :
    (engineAnswers k n ready).length = n := by
  induction n generalizing ready with
  | zero => rfl
  | succ n ih => simp [engineAnswers, ih]

theorem engineAnswers_add (k a b : ℕ) (ready : List (List ℚ)) :
    engineAnswers k (a + b) ready =
      engineAnswers k a ready ++ engineAnswers k b (engineReady k a ready) := by
  induction a generalizing ready with
  | zero => simp [engineAnswers, engineReady]
  | succ a ih =>
    rw [show a + 1 + b = (a + b) + 1 by omega]
    simp only [engineAnswers, engineReady, List.cons_append]
    rw [ih]

theorem engineReady_eq_nil (k : ℕ) (n : ℕ) (ready : List (List ℚ))
    (h : ready.length ≤ n * k) : engineReady k n ready = [] := by
  induction n generalizing ready with
  | zero =>
    simp only [Nat.zero_mul, Nat.le_zero] at h
    exact List.length_eq_zero.mp h
  | succ n ih =>
    simp only [engineReady]
    apply ih
    rw [List.length_drop]
    rw [Nat.add_mul] at h
    omega

theorem engineAnswers_nonempty (k : ℕ) (hk : 0 < k) (n : ℕ) (ready : List (List ℚ))
    (h : n * k < ready.length + k) :
    ∀ p ∈ engineAnswers k n ready, 0 < p.nSamples ∧ p.nSamples ≤ k := by
  induction n generalizing ready with
  | zero => intro p hp; simp [engineAnswers] at hp
  | succ n ih =>
    intro p hp
    rw [Nat.add_mul] at h
    simp only [engineAnswers, List.mem_cons] at hp
    rcases hp with rfl | hp
    · simp only
      constructor
      · have : 0 < min k ready.length := by
          rw [lt_min_iff]
          exact ⟨hk, by omega⟩
        exact_mod_cast this
      · exact_mod_cast min_le_left k ready.length
    · by_cases hz : n = 0
      · subst hz
        simp [engineAnswers] at hp
      · have hn1 : k ≤ n * k := Nat.le_mul_of_pos_left k (Nat.pos_of_ne_zero hz)
        exact ih (ready.drop k) (by rw [List.length_drop]; omega) p hp

theorem engineAnswers_samples (k n : ℕ) (ready : List (List ℚ)) :
    ((engineAnswers k n ready).map (fun p => p.samples)).flatten ++
      (engineReady k n ready).flatten = ready.flatten := by
  induction n generalizing ready with
  | zero => simp [engineAnswers, engineReady]
  | succ n ih =>
    simp only [engineAnswers, engineReady, List.map_cons, List.flatten_cons, List.append_assoc]
    rw [ih, ← List.flatten_append, List.take_append_drop]

theorem engineAnswers_frames (k n : ℕ) (ready : List (List ℚ)) :
    ((engineAnswers k n ready).map (fun p => p.nSamples)).sum +
      ((engineReady k n ready).length : ℤ) = ready.length := by
  induction n generalizing ready with
  | zero => simp [engineAnswers, engineReady]
  | succ n ih =>
    simp only [engineAnswers, engineReady, List.map_cons, List.sum_cons]
    rw [add_assoc, ih, List.length_drop]
    push_cast
    omega

theorem engineAnswers_succ (k n : ℕ) (ready : List (List ℚ)) :
    engineAnswers k (n + 1) ready =
      ⟨((min k ready.length : ℕ) : ℤ), (ready.take k).flatten⟩ ::
        engineAnswers k n (ready.drop k) := rfl

theorem drainLoop_engine (k : ℕ) (hk : 0 < k) (cap : ℤ) (sink : Pulled → List Event) :
    ∀ (n : ℕ) (ready : List (List ℚ)), (ready.length + k - 1) / k + 1 ≤ n →
      drainLoop cap sink (engineAnswers k n ready) =
        ((engineAnswers k ((ready.length + k - 1) / k + 1) ready).flatMap
            (fun p => Event.pull cap p.nSamples :: sink p),
          some (engineAnswers k (n - ((ready.length + k - 1) / k + 1)) [])) := by
  intro n
  induction n with
  | zero => intro ready h; exact absurd h (Nat.not_succ_le_zero _)
  | succ n ih =>
    intro ready h
    by_cases hlen : ready.length = 0
    · have hnil : ready = [] := List.length_eq_zero.mp hlen
      subst hnil
      simp only [List.length_nil, ceilDiv_zero k hk]
      rw [engineAnswers_succ, engineAnswers_succ, drainLoop_cons_zero _ _ _ _ (by simp)]
      simp [engineAnswers]
    · have hpos : 0 < ready.length := Nat.pos_of_ne_zero hlen
      have hc := ceilDiv_succ k ready.length hk hpos
      have hmin : ((min k ready.length : ℕ) : ℤ) ≠ 0 := by
        have : 0 < min k ready.length := by
          rw [lt_min_iff]
          exact ⟨hk, hpos⟩
        exact_mod_cast this.ne'
      have hdrop : (ready.drop k).length = ready.length - k := List.length_drop _ _
      have hle : (ready.length - k + k - 1) / k + 1 ≤ n := by
        rw [hc] at h
        exact Nat.le_of_succ_le_succ h
      have ih' := ih (ready.drop k) (by rw [hdrop]; exact hle)
      rw [hdrop] at ih'
      rw [hc, engineAnswers_succ, engineAnswers_succ, drainLoop_cons_ne _ _ _ _ hmin, ih']
      simp only [List.flatMap_cons, List.cons_append, Nat.add_sub_add_right]

/-- C17. The drain loop drains to exhaustion and terminates. Against an engine
holding `r` ready frames that answers a pull of capacity `k > 0` with the first
`min k remaining` frames, the do/while loop (of `process_frame`, of the flush
branch of `processFrame`, of `_processFile`: any sink) stops after exactly
`c = ⌈r / k⌉` non-empty pulls and one final empty pull, whatever the number
`n ≥ c + 1` of pulls the engine would still answer. It hands the answers to the
sink in order; their samples, concatenated, are the ready frames (nothing lost or
repeated), their frame counts add up to `r`, and the engine is left with no
ready frame. -/
theorem drainLoop_drains_to_exhaustion (k : ℕ) (hk : 0 < k) (sink : Pulled → List Event)
    (ready : List (List ℚ)) (c : ℕ) (hc : c = (ready.length + k - 1) / k) (n : ℕ)
    (hn : c + 1 ≤ n) :
    drainLoop k sink (engineAnswers k n ready) =
      ((engineAnswers k c ready ++ [(⟨0, []⟩ : Pulled)]).flatMap
          (fun p => Event.pull k p.nSamples :: sink p),
        some (engineAnswers k (n - (c + 1)) [])) ∧
    c = ⌈(ready.length : ℚ) / k⌉₊ ∧
    (engineAnswers k c ready).length = c ∧
    (∀ p ∈ engineAnswers k c ready, 0 < p.nSamples ∧ p.nSamples ≤ k) ∧
    ((engineAnswers k c ready).map (fun p => p.samples)).flatten = ready.flatten ∧
    ((engineAnswers k c ready).map (fun p => p.nSamples)).sum = ready.length ∧
    engineReady k c ready = [] ∧ engineReady k (c + 1) ready = [] ∧
    (∀ (fl : ℚ → ℚ) (sampleBuffer : List ℚ) (bufferSize sampleRate nChannels bytesPerSample : ℤ),
      Int.tdiv BUFF_SIZE nChannels = k →
      process_frame fl sampleBuffer bufferSize sampleRate nChannels bytesPerSample
          (engineAnswers k n ready) =
        [Event.setSampleRate sampleRate, Event.setChannels nChannels,
          Event.putSamples sampleBuffer (Int.tdiv bufferSize nChannels)] ++
        (engineAnswers k c ready ++ [(⟨0, []⟩ : Pulled)]).flatMap
          (fun p => Event.pull k p.nSamples :: callbackSink fl nChannels bytesPerSample p)) ∧
    (∀ (fl : ℚ → ℚ) (openmp : Bool) (thread : ℕ) (s : JniState) (sampleRate nChannels : ℤ),
      Int.tdiv BUFF_SIZE nChannels = k → (_init_threading openmp thread true s).1 = 0 →
      (Java_net_surina_soundtouch_SoundTouch_processFrame fl openmp thread s none sampleRate
          nChannels (engineAnswers k n ready)).2.2 =
        Event.flush :: (engineAnswers k c ready ++ [(⟨0, []⟩ : Pulled)]).flatMap
          (fun p => Event.pull k p.nSamples :: callbackSink fl nChannels 2 p)) := by
  have hready : engineReady k c ready = [] :=
    engineReady_eq_nil k c ready (by rw [hc]; exact ceilDiv_mul_ge k ready.length hk)
  have hsplit : engineAnswers k (c + 1) ready = engineAnswers k c ready ++ [(⟨0, []⟩ : Pulled)] := by
    rw [engineAnswers_add, hready]
    simp [engineAnswers]
  have hloop : ∀ snk : Pulled → List Event,
      drainLoop k snk (engineAnswers k n ready) =
        ((engineAnswers k c ready ++ [(⟨0, []⟩ : Pulled)]).flatMap
            (fun p => Event.pull k p.nSamples :: snk p),
          some (engineAnswers k (n - (c + 1)) [])) := by
    intro snk
    have := drainLoop_engine k hk k snk n ready (by rw [← hc]; exact hn)
    rw [← hc, hsplit] at this
    exact this
  have hsamples := engineAnswers_samples k c ready
  rw [hready, List.flatten_nil, List.append_nil] at hsamples
  have hframes := engineAnswers_frames k c ready
  rw [hready] at hframes
  simp only [List.length_nil, Nat.cast_zero, add_zero] at hframes
  refine ⟨hloop sink, by rw [hc]; exact ceilDiv_eq_ceil k ready.length hk,
    engineAnswers_length k c ready,
    engineAnswers_nonempty k hk c ready (by rw [hc]; exact ceilDiv_mul_lt k ready.length hk),
    hsamples, hframes, hready, ?_, ?_, ?_⟩
  · exact engineReady_eq_nil k (c + 1) ready
      (le_trans (by rw [hc]; exact ceilDiv_mul_ge k ready.length hk)
        (Nat.mul_le_mul_right k (Nat.le_succ c)))
  · intro fl sampleBuffer bufferSize sampleRate nChannels bytesPerSample hcap
    unfold process_frame
    rw [hcap, hloop]
  · intro fl openmp thread s sampleRate nChannels hcap hthr
    unfold Java_net_surina_soundtouch_SoundTouch_processFrame
    simp only [hthr, ne_eq, not_true_eq_false, ite_false]
    rw [hcap, hloop]

/-- Witness of C17: three stereo frames, capacity 2: two non-empty pulls and
an empty one; the engine would answer four pulls and one answer is left over. -/
theorem drainLoop_drains_to_exhaustion_witness :
    (drainLoop 2 (writeSink 2) (engineAnswers 2 4 [[1, 2], [3, 4], [5, 6]])).2 =
      some (engineAnswers 2 (4 - (2 + 1)) []) ∧
    ((engineAnswers 2 2 [[1, 2], [3, 4], [5, 6]]).map (fun p => p.samples)).flatten =
      ([[1, 2], [3, 4], [5, 6]] : List (List ℚ)).flatten := by
  have h := drainLoop_drains_to_exhaustion 2 (by decide) (writeSink 2) [[1, 2], [3, 4], [5, 6]]
    2 (by decide) 4 (by decide)
  refine ⟨?_, h.2.2.2.2.1⟩
  have h1 := h.1
  simp only [Nat.cast_ofNat] at h1
  rw [h1]

end SoundTouchJni
